import Mathlib

/-!
# BinaryMaker: hexadecimal text to binary, three threads and two circular buffers

Shallow embedding of `src/binarymaker.c`.

* Characters and bytes are natural numbers (the byte value, `0 .. 255`); `u8` and `u32`
  arithmetic is written with an explicit `% 256` / `% 2 ^ 32`.
* `THROW_ERROR` ends the process (`exit(-1)`); the decoder returns `Except`, the error being the
  offending character.
* The process is a step function on an explicit state, a schedule saying which thread moves
  (`Program`, `step`, `run`).  A critical section is one step; the wait loops of the two
  consumers are taken statement by statement, because the finished flags are stored and
  signalled outside the mutex.
* `Pipeline`, `guardedStep`, `guardedRun` are the abstraction in which every wait loop is one
  guard.  Every step of the program is a step of the abstraction or leaves its state
  unchanged, so the invariants proved on the abstraction hold of the program.
-/

namespace BinaryMaker

/-! ## Constants and index arithmetic -/

/-- Constant `BUFFER_SIZE` (`#define BUFFER_SIZE 512`). -/
def BUFFER_SIZE : Nat := 512

/-- Constant `DUMP_SIZE` (`#define DUMP_SIZE BUFFER_SIZE / 2`; every use is one where the
missing parentheses do no harm). -/
def DUMP_SIZE : Nat := BUFFER_SIZE / 2

/-- Modulus of the type `u32`. -/
def U32 : Nat := 2 ^ 32

/-- Function `u32 getDistanceInBuffer(u32 a, u32 b)`:
`return a <= b? b - a: BUFFER_SIZE - a + b;` with every operation taken modulo `2 ^ 32`. -/
def getDistanceInBuffer (a b : Nat) : Nat :=
  if a ≤ b then (b - a) % U32
  else ((BUFFER_SIZE + U32 - a) % U32 + b) % U32

/-- The same expression over unbounded integers: no wraparound at all. -/
def distanceExact (a b : Nat) : Int :=
  if a ≤ b then (b : Int) - a else (BUFFER_SIZE : Int) - a + b

/-- Overwrite one slot of an array (arrays are functions from the index). -/
def store (arr : Nat → Nat) (i v : Nat) : Nat → Nat :=
  fun j => if j = i then v else arr j

/-! ## The decoder -/

/-- One round of the loop of `convertCharsToU8`: `result <<= 4` on a `u8`, then the three
ranges `'0'..'9'`, `'A'..'F'`, `'a'..'f'`, else `THROW_ERROR("UNKOWN CHARACTER: %c", chars[i])`. -/
def convertCharsToU8_round (result ch : Nat) : Except Nat Nat :=
  let shifted := (result * 16) % 256
  if 48 ≤ ch ∧ ch ≤ 57 then .ok (shifted ||| ((ch - 48) % 256))
  else if 65 ≤ ch ∧ ch ≤ 70 then .ok (shifted ||| ((ch - 65 + 10) % 256))
  else if 97 ≤ ch ∧ ch ≤ 102 then .ok (shifted ||| ((ch - 97 + 10) % 256))
  else .error ch

/-- Function `u8 convertCharsToU8(const char chars[])`: `result = 0`, then the round for `i = 0` and
`i = 1`; the first offending character aborts. -/
def convertCharsToU8 (chars : Nat → Nat) : Except Nat Nat :=
  match convertCharsToU8_round 0 (chars 0) with
  | .error e => .error e
  | .ok r => convertCharsToU8_round r (chars 1)

/-- The test of line 221:
`c != ' ' && c != 0 && c != '\0' && c != '\r' && c != '\n' && c != '\t'`. -/
def significant (c : Nat) : Bool :=
  c != 32 && c != 0 && c != 0 && c != 13 && c != 10 && c != 9

/-- Private state of the converting thread: `u8 count` and the global `char vals[2]`. -/
structure Accumulator where
  count : Nat
  vals : Nat → Nat

/-- State at thread start: `count = 0`, `vals` zero-initialised. -/
def Accumulator.init : Accumulator := ⟨0, fun _ => 0⟩

/-- Lines 221-222: `if (significant) vals[count++] = c;` (`count` is a `u8`). -/
def acceptChar (acc : Accumulator) (c : Nat) : Accumulator :=
  if significant c then ⟨(acc.count + 1) % 256, store acc.vals acc.count c⟩ else acc

/-- The converting loop of `convertFile` (lines 220-242) run over the characters in the order
buffer A delivers them.  Result: the bytes pushed to buffer B, and the character reported by
`THROW_ERROR` if the process was aborted. -/
def convertLoop (acc : Accumulator) : List Nat → List Nat × Option Nat
  | [] => ([], none)
  | c :: cs =>
    let acc1 := acceptChar acc c
    if acc1.count = 2 then
      match convertCharsToU8 acc1.vals with
      | .error e => ([], some e)
      | .ok val =>
        let r := convertLoop ⟨0, acc1.vals⟩ cs
        (val :: r.1, r.2)
    else convertLoop acc1 cs

/-- The Converter as a function of the whole character stream. -/
def convertFile (input : List Nat) : List Nat × Option Nat :=
  convertLoop Accumulator.init input

/-! ## Vocabulary of the specification (used to state the properties) -/

/-- A hexadecimal digit: `0-9`, `A-F`, `a-f`. -/
def isHexDigit (c : Nat) : Prop :=
  (48 ≤ c ∧ c ≤ 57) ∨ (65 ≤ c ∧ c ≤ 70) ∨ (97 ≤ c ∧ c ≤ 102)

instance (c : Nat) : Decidable (isHexDigit c) := by unfold isHexDigit; infer_instance

/-- A filtered separator: space, tab, carriage return, newline, NUL. -/
def isSeparator (c : Nat) : Prop :=
  c = 32 ∨ c = 9 ∨ c = 13 ∨ c = 10 ∨ c = 0

instance (c : Nat) : Decidable (isSeparator c) := by unfold isSeparator; infer_instance

/-- Delete the filtered separators. -/
def stripSeparators (input : List Nat) : List Nat :=
  input.filter (fun c => decide (¬ isSeparator c))

/-- Nibble of a digit as the specification gives it: `0-9 -> 0..9`, `A-F / a-f -> 10..15`. -/
def specNibble (c : Nat) : Nat :=
  if 48 ≤ c ∧ c ≤ 57 then c - 48
  else if 65 ≤ c ∧ c ≤ 70 then c - 65 + 10
  else c - 97 + 10

/-- The byte of a pair as the specification gives it. -/
def specByte (a b : Nat) : Nat := (specNibble a <<< 4) ||| specNibble b

/-- Pair-wise decoding as the specification gives it: one byte per consecutive pair. -/
def specDecode : List Nat → List Nat
  | a :: b :: rest => specByte a b :: specDecode rest
  | _ => []

/-- Text of a character string: its bytes. -/
def bytesOf (s : String) : List Nat := s.toList.map Char.toNat

/-- Uppercase hexadecimal digit of a nibble. -/
def upperHexDigit (n : Nat) : Nat := if n < 10 then 48 + n else 55 + n

/-- A byte sequence written as uppercase pairs separated by single spaces. -/
def encodeHex : List Nat → List Nat
  | [] => []
  | [b] => [upperHexDigit (b / 16), upperHexDigit (b % 16)]
  | b :: b2 :: bs => upperHexDigit (b / 16) :: upperHexDigit (b % 16) :: 32 :: encodeHex (b2 :: bs)

/-- Pair-wise run of the decoder over significant characters only (characterises
`convertLoop`): stops at the first pair that `convertCharsToU8` rejects, ignores a lone last
character. -/
def decodePairs : List Nat → List Nat × Option Nat
  | a :: b :: rest =>
    match convertCharsToU8 (store (store (fun _ => 0) 0 a) 1 b) with
    | .error e => ([], some e)
    | .ok val => (val :: (decodePairs rest).1, (decodePairs rest).2)
  | _ => ([], none)

/-! ## The circular buffers -/

/-- One circular buffer with its two indices: `reading_buffer`, `reading_producer_index`,
`reading_consumer_index` (buffer A) or `writing_buffer`, `writing_producer_index`,
`writing_consumer_index` (buffer B). -/
structure Ring where
  buf : Nat → Nat
  prod : Nat
  cons : Nat

/-- Initial indices set by `main` (lines 330-333): producer `0`, consumer `BUFFER_SIZE - 1`;
the global arrays start zeroed. -/
def Ring.init : Ring := ⟨fun _ => 0, 0, BUFFER_SIZE - 1⟩

/-- The copy loop of `readFile` (lines 166-168), from round `i` on:
`reading_buffer[(reading_producer_index + i) % BUFFER_SIZE] = tmp[i]`. -/
def copyIn (buf : Nat → Nat) (prod i : Nat) : List Nat → (Nat → Nat)
  | [] => buf
  | x :: rest => copyIn (store buf (((prod + i) % U32) % BUFFER_SIZE) x) prod (i + 1) rest

/-- Critical section of `readFile` (lines 161-173) for a chunk `tmp` of `c = tmp.length`
characters: `none` while the wait condition `distance(producer, consumer) < c + 1` holds. -/
def readFile_push (tmp : List Nat) (r : Ring) : Option Ring :=
  if getDistanceInBuffer r.prod r.cons < (tmp.length + 1) % U32 then none
  else some
    { buf := copyIn r.buf r.prod 0 tmp
      prod := ((r.prod + tmp.length) % U32) % BUFFER_SIZE
      cons := r.cons }

/-- Critical section of `convertFile` on buffer A (lines 209-220), `free` being
`reading_buffer_free`: `none` while it waits, `some (none, _)` for the `continue` of line 217,
else the character read at the advanced consumer index. -/
def convertFile_take (free : Bool) (r : Ring) : Option (Option Nat × Ring) :=
  let dist := getDistanceInBuffer r.cons r.prod
  if !free && decide (dist ≤ 1) then none
  else if free && decide (dist = 1) then some (none, r)
  else
    let cons := ((r.cons + 1) % U32) % BUFFER_SIZE
    some (some (r.buf cons), { r with cons := cons })

/-- Critical section of `convertFile` on buffer B (lines 231-240): `none` while
`distance(producer, consumer) == 1`. -/
def convertFile_put (val : Nat) (r : Ring) : Option Ring :=
  if getDistanceInBuffer r.prod r.cons = 1 then none
  else some
    { buf := store r.buf r.prod val
      prod := ((r.prod + 1) % U32) % BUFFER_SIZE
      cons := r.cons }

/-- Critical section of `writeFile` (lines 258-275), `free` being `writing_buffer_free`:
`none` while it waits (`!free && dist < DUMP_SIZE`), else the `dist - 1` bytes copied to `tmp`
and the buffer with the consumer index advanced by `dist - 1` (`u32` arithmetic). -/
def writeFile_drain (free : Bool) (r : Ring) : Option (List Nat × Ring) :=
  let dist := getDistanceInBuffer r.cons r.prod
  if !free && decide (dist < DUMP_SIZE) then none
  else
    let n := (dist + U32 - 1) % U32
    some ((List.range n).map (fun i => r.buf (((r.cons + i + 1) % U32) % BUFFER_SIZE)),
          { r with cons := ((r.cons + dist + U32 - 1) % U32) % BUFFER_SIZE })

/-- The slots `start, start + 1, ..., start + n - 1` (mod `BUFFER_SIZE`) of an array. -/
def slots (buf : Nat → Nat) (start : Nat) : Nat → List Nat
  | 0 => []
  | n + 1 => buf (start % BUFFER_SIZE) :: slots buf (start + 1) n

/-- Number of unread elements: `distance(consumer, producer) - 1`. -/
def Ring.unreadCount (r : Ring) : Nat := getDistanceInBuffer r.cons r.prod - 1

/-- The unread elements, oldest first: slots `consumer + 1 .. producer - 1` (mod 512). -/
def Ring.unread (r : Ring) : List Nat := slots r.buf (r.cons + 1) r.unreadCount

/-- Empty by the distance convention: `distance(consumer, producer) = 1`. -/
def Ring.isEmpty (r : Ring) : Prop := getDistanceInBuffer r.cons r.prod = 1

/-- Full: no producer may advance, `distance(producer, consumer) = 1`. -/
def Ring.isFull (r : Ring) : Prop := getDistanceInBuffer r.prod r.cons = 1

/-- A produce or consume step on one buffer, as the three threads perform them. -/
inductive RingOp where
  /-- Reader: push the chunk `tmp` (at most `DUMP_SIZE` characters, the size of `tmp`). -/
  | push (tmp : List Nat)
  /-- Converter: push one byte. -/
  | put (val : Nat)
  /-- Converter: take one character; `free` is the producer-finished flag it reads. -/
  | take (free : Bool)
  /-- Writer: drain; `free` is the producer-finished flag it reads. -/
  | drain (free : Bool)

/-- A buffer together with the history of what went in and what came out. -/
structure RingTrace where
  ring : Ring
  produced : List Nat
  consumed : List Nat

/-- History at start. -/
def RingTrace.init : RingTrace := ⟨Ring.init, [], []⟩

/-- One step on a buffer; `none` when the step's guard does not hold. -/
def ringStep (t : RingTrace) : RingOp → Option RingTrace
  | .push tmp =>
    if tmp.length ≤ DUMP_SIZE then
      (readFile_push tmp t.ring).map (fun r => ⟨r, t.produced ++ tmp, t.consumed⟩)
    else none
  | .put val =>
    (convertFile_put val t.ring).map (fun r => ⟨r, t.produced ++ [val], t.consumed⟩)
  | .take free =>
    (convertFile_take free t.ring).map
      (fun res => ⟨res.2, t.produced, t.consumed ++ res.1.toList⟩)
  | .drain free =>
    (writeFile_drain free t.ring).map (fun res => ⟨res.2, t.produced, t.consumed ++ res.1⟩)

/-- A sequence of steps on a buffer. -/
def ringRun : List RingOp → RingTrace → Option RingTrace
  | [], t => some t
  | op :: ops, t =>
    match ringStep t op with
    | none => none
    | some t1 => ringRun ops t1

/-! ## The three threads, with every wait loop taken as one guard -/

/-- Program points of `readFile` in the abstraction with waits as guards. -/
inductive ReaderPc where
  | fread | push | finish | done
  deriving DecidableEq

/-- Program points of `convertFile` in the abstraction with waits as guards. -/
inductive ConverterPc where
  | check | take | put | finish | done
  deriving DecidableEq

/-- Program points of `writeFile` in the abstraction with waits as guards. -/
inductive WriterPc where
  | check | drain | fwrite | done
  deriving DecidableEq

/-- State of the whole process in the abstraction with waits as guards. -/
structure Pipeline where
  /-- part of the input file not read yet -/
  file : List Nat
  rpc : ReaderPc
  /-- the `c` characters that `fread` put in the `tmp` of the Reader -/
  rtmp : List Nat
  /-- buffer A -/
  A : Ring
  reading_buffer_free : Bool
  /-- whether `reading_mutex` was left locked by the `continue` of line 217 -/
  reading_mutex_held : Bool
  cpc : ConverterPc
  acc : Accumulator
  /-- the local `val` of the Converter -/
  val : Nat
  /-- buffer B -/
  B : Ring
  writing_buffer_free : Bool
  wpc : WriterPc
  /-- the `dist - 1` bytes in the `tmp` of the Writer -/
  wtmp : List Nat
  /-- bytes written to the output file -/
  output : List Nat
  /-- character reported by `THROW_ERROR` when the process was ended by `exit(-1)` -/
  aborted : Option Nat

/-- State set up by `main` before the threads start. -/
def Pipeline.init (input : List Nat) : Pipeline :=
  { file := input, rpc := .fread, rtmp := [],
    A := Ring.init, reading_buffer_free := false, reading_mutex_held := false,
    cpc := .check, acc := Accumulator.init, val := 0,
    B := Ring.init, writing_buffer_free := false,
    wpc := .check, wtmp := [], output := [], aborted := none }

/-- One step of `readFile` in the abstraction where every wait loop is one guard (a step
that would wait is not enabled).  `fread` returns between `1` and `DUMP_SIZE` characters
(`short + 1` bounds a short read) and `0` only at the end of the input. -/
def readFile_guarded (short : Nat) (s : Pipeline) : Option Pipeline :=
  match s.rpc with
  | .fread =>
    let c := min (min (short + 1) DUMP_SIZE) s.file.length
    some { s with rtmp := s.file.take c, file := s.file.drop c, rpc := .push }
  | .push =>
    if s.reading_mutex_held then none
    else
      match readFile_push s.rtmp s.A with
      | none => none
      | some a => some { s with A := a, rpc := if s.rtmp.length ≠ 0 then .fread else .finish }
  | .finish => some { s with reading_buffer_free := true, rpc := .done }
  | .done => none

/-- One step of `convertFile` in the abstraction where every wait loop is one guard: the
loop test of line 207, the critical section on buffer A followed by the thread-local
decoding, the critical section on buffer B, the final flag.  The program itself, in which
the test of line 212 and the `waitCondition` of line 213 are two statements, is
`convertFile_step` below. -/
def convertFile_guarded (s : Pipeline) : Option Pipeline :=
  match s.cpc with
  | .check =>
    if !s.reading_buffer_free || decide (getDistanceInBuffer s.A.cons s.A.prod ≠ 1) then
      some { s with cpc := .take }
    else some { s with cpc := .finish }
  | .take =>
    if s.reading_mutex_held then none
    else
      match convertFile_take s.reading_buffer_free s.A with
      | none => none
      | some (none, _) => some { s with reading_mutex_held := true, cpc := .check }
      | some (some c, a) =>
        let acc1 := acceptChar s.acc c
        if acc1.count = 2 then
          match convertCharsToU8 acc1.vals with
          | .error e => some { s with A := a, acc := acc1, aborted := some e }
          | .ok val => some { s with A := a, acc := acc1, val := val, cpc := .put }
        else some { s with A := a, acc := acc1, cpc := .check }
  | .put =>
    match convertFile_put s.val s.B with
    | none => none
    | some b => some { s with B := b, acc := ⟨0, s.acc.vals⟩, cpc := .check }
  | .finish => some { s with writing_buffer_free := true, cpc := .done }
  | .done => none

/-- One step of `writeFile` in the abstraction where every wait loop is one guard: the loop
test of line 257, the critical section, the `fwrite`.  The program itself, in which the test
of line 262 and the `waitCondition` of line 263 are two statements, is `writeFile_step`
below. -/
def writeFile_guarded (s : Pipeline) : Option Pipeline :=
  match s.wpc with
  | .check =>
    if !s.writing_buffer_free || decide (getDistanceInBuffer s.B.cons s.B.prod ≠ 1) then
      some { s with wpc := .drain }
    else some { s with wpc := .done }
  | .drain =>
    match writeFile_drain s.writing_buffer_free s.B with
    | none => none
    | some (tmp, b) => some { s with B := b, wtmp := tmp, wpc := .fwrite }
  | .fwrite => some { s with output := s.output ++ s.wtmp, wpc := .check }
  | .done => none

/-- Which thread moves next. -/
inductive Thread where
  | reader (short : Nat)
  | converter
  | writer

/-- One step of the abstraction with waits as guards; nothing moves once `exit(-1)` was
called.  It is the atomic-step model, used to carry the invariants: every step of the program
(`step` below) is a step of it or leaves its state unchanged. -/
def guardedStep (s : Pipeline) (t : Thread) : Option Pipeline :=
  if s.aborted.isSome then none
  else
    match t with
    | .reader short => readFile_guarded short s
    | .converter => convertFile_guarded s
    | .writer => writeFile_guarded s

/-- A run of the abstraction under a given interleaving. -/
def guardedRun : List Thread → Pipeline → Option Pipeline
  | [], s => some s
  | t :: ts, s =>
    match guardedStep s t with
    | none => none
    | some s1 => guardedRun ts s1

/-- All three threads reached `pthread_exit` (in the abstraction). -/
def Pipeline.terminated (s : Pipeline) : Prop :=
  s.rpc = .done ∧ s.cpc = .done ∧ s.wpc = .done

instance (s : Pipeline) : Decidable s.terminated := by
  unfold Pipeline.terminated; infer_instance

/-! ## Invariants used in the proofs -/

/-- Both indices are inside the array and differ. -/
def Ring.wf (r : Ring) : Prop := r.prod < 512 ∧ r.cons < 512 ∧ r.prod ≠ r.cons

/-- Characters the Reader holds or has still to read. -/
def Pipeline.readerPending (s : Pipeline) : List Nat :=
  (if s.rpc = .push then s.rtmp else []) ++ s.file

/-- Characters the Converter has not taken yet, in order. -/
def Pipeline.charsAhead (s : Pipeline) : List Nat := s.A.unread ++ s.readerPending

/-- What the Converter will still push, and the error it will end in, by its program point. -/
def Pipeline.future (s : Pipeline) : List Nat × Option Nat :=
  match s.cpc with
  | .check => convertLoop s.acc s.charsAhead
  | .take => convertLoop s.acc s.charsAhead
  | .put =>
    (s.val :: (convertLoop ⟨0, s.acc.vals⟩ s.charsAhead).1,
      (convertLoop ⟨0, s.acc.vals⟩ s.charsAhead).2)
  | .finish => ([], none)
  | .done => ([], none)

/-- Bytes the Converter has pushed, in order: written, in the Writer's `tmp`, unread in B. -/
def Pipeline.bytesBehind (s : Pipeline) : List Nat :=
  s.output ++ (if s.wpc = .fwrite then s.wtmp else []) ++ s.B.unread

/-- Invariant of the process, relative to the input file. -/
structure Inv (input : List Nat) (s : Pipeline) : Prop where
  wfA : s.A.wf
  wfB : s.B.wf
  rtmp_len : s.rtmp.length ≤ 256
  eof : s.rpc = .finish ∨ s.rpc = .done → s.file = []
  eof_push : s.rpc = .push → s.rtmp = [] → s.file = []
  rfree : s.reading_buffer_free = true ↔ s.rpc = .done
  cdone : s.cpc = .finish ∨ s.cpc = .done → s.reading_buffer_free = true ∧ s.A.unread = []
  wfree : s.writing_buffer_free = true ↔ s.cpc = .done
  wdone : s.wpc = .done → s.writing_buffer_free = true ∧ s.B.unread = []
  data : s.aborted = none →
    s.bytesBehind ++ s.future.1 = (convertFile input).1 ∧ s.future.2 = (convertFile input).2
  abort : ∀ e, s.aborted = some e →
    (convertFile input).2 = some e ∧ s.bytesBehind = (convertFile input).1 ∧ s.cpc = .take

/-! ## Concrete runs -/

/-- A small input: one pair split by a separator, then a lone digit. -/
def demoInput : List Nat := bytesOf "4 1A"

/-- Steps on one buffer that take the indices once around the array: two full chunks pushed
and drained, then three more elements pushed and one taken. -/
def demoOps : List RingOp :=
  [.push (List.replicate 256 1), .drain true, .push (List.replicate 256 2), .drain true,
   .push [7, 8, 9], .take false]

/-- History reached by `demoOps`. -/
def demoTrace : RingTrace := (ringRun demoOps RingTrace.init).getD RingTrace.init

/-- Steps that fill a buffer: a full chunk, two elements taken, a second full chunk. -/
def fillOps : List RingOp :=
  [.push (List.replicate 256 0), .take false, .take false, .push (List.replicate 256 0)]

/-- History reached by `fillOps`. -/
def fillTrace : RingTrace := (ringRun fillOps RingTrace.init).getD RingTrace.init

/-! ## Progress: second invariant and termination measure -/

/-- Facts about the mutex left locked and about an empty `tmp` of the Writer. -/
structure Inv2 (s : Pipeline) : Prop where
  mutex : s.reading_mutex_held = true →
    s.reading_buffer_free = true ∧ s.A.unread = [] ∧ s.cpc ≠ .take ∧ s.cpc ≠ .put
  wtmp_nil : s.wpc = .fwrite → s.wtmp = [] →
    s.writing_buffer_free = true ∧ s.B.unread = []

/-- Rank of the program points of `readFile`. -/
def ReaderPc.rank : ReaderPc → Nat
  | .fread => 3
  | .push => 2
  | .finish => 1
  | .done => 0

/-- Rank of the program points of `convertFile`. -/
def ConverterPc.rank : ConverterPc → Nat
  | .put => 4
  | .check => 3
  | .take => 2
  | .finish => 1
  | .done => 0

/-- Rank of the program points of `writeFile`; the loop test ranks low once buffer B is
finished and drained. -/
def Pipeline.writerRank (s : Pipeline) : Nat :=
  match s.wpc with
  | .check => if s.writing_buffer_free = true ∧ s.B.unread = [] then 1 else 4
  | .drain => 3
  | .fwrite => 2
  | .done => 0

/-- Termination measure: every step of every thread makes it smaller. -/
def Pipeline.measure (s : Pipeline) : Nat :=
  4 * (3 * s.charsAhead.length + (if s.reading_mutex_held then 0 else 2) + s.cpc.rank)
  + (3 * (s.B.unread.length + (if s.wpc = .fwrite then s.wtmp.length else 0)) + s.writerRank)
  + (3 * s.readerPending.length + s.rpc.rank)

/-! ## Indices used by the array accesses -/

/-- Subscripts of `reading_buffer` in the copy loop of `readFile` (line 167), for `c`
characters; the subscripts of `tmp` are `0 .. c - 1` and `tmp` has `DUMP_SIZE` slots. -/
def readFile_indices (c : Nat) (r : Ring) : List Nat :=
  (List.range c).map (fun i => ((r.prod + i) % U32) % BUFFER_SIZE)

/-- Subscript of `reading_buffer` read by `convertFile` (lines 218 and 220). -/
def convertFile_take_index (r : Ring) : Nat := ((r.cons + 1) % U32) % BUFFER_SIZE

/-- Subscript of `writing_buffer` written by `convertFile` (line 236). -/
def convertFile_put_index (r : Ring) : Nat := r.prod

/-- Loop bound `dist - 1` of `writeFile` (line 268), also the count given to `fwrite`
(line 279), in `u32` arithmetic; the subscripts of `tmp` are `0 .. count - 1` and `tmp` has
`BUFFER_SIZE` slots. -/
def writeFile_count (r : Ring) : Nat := (getDistanceInBuffer r.cons r.prod + U32 - 1) % U32

/-- Subscripts of `writing_buffer` read by the copy loop of `writeFile` (line 269). -/
def writeFile_indices (r : Ring) : List Nat :=
  (List.range (writeFile_count r)).map (fun i => ((r.cons + i + 1) % U32) % BUFFER_SIZE)

/-- The process is over: the three threads reached `pthread_exit`, or `exit(-1)` ended it
and its threads with it. -/
def Pipeline.ended (s : Pipeline) : Prop := s.terminated ∨ s.aborted.isSome = true

instance (s : Pipeline) : Decidable s.ended := by
  unfold Pipeline.ended; infer_instance

/-- Result of a drain on the full buffer reached by `fillOps`. -/
def fillDrain : List Nat × Ring :=
  (writeFile_drain false fillTrace.ring).getD ([], Ring.init)

/-- Result of pushing two characters on the buffer reached by `demoOps`. -/
def demoPush : Ring := (readFile_push [5, 6] demoTrace.ring).getD Ring.init

/-- Result of taking one character from the buffer reached by `demoOps`. -/
def demoTake : Option Nat × Ring :=
  (convertFile_take false demoTrace.ring).getD (none, Ring.init)

/-! ## End-of-stream signalling, statement by statement

The atomic steps above take a wait loop as one guarded step.  Here the last statements of a
producer and the wait loop of its consumer are separate steps, as `pthread` runs them: the
flag assignment and the `signalCondition` of the producer are not inside any
`mutexLock` / `mutexUnlock` pair, so they can run while the consumer holds the mutex. -/

/-- Last statements of a producer: the flag assignment (line 180 for the Reader, line 244 for
the Converter), the `signalCondition` after it (line 181, line 245), `pthread_exit`. -/
inductive FinishPc where
  | setFlag | signal | exited
  deriving DecidableEq

/-- Wait loop of a consumer inside its critical section: the test of the loop condition
(line 212 for the Converter, line 262 for the Writer), the call of `waitCondition` (line 213,
line 263), blocked inside `pthread_cond_wait`, past the loop. -/
inductive WaitPc where
  | test | callWait | blocked | past
  deriving DecidableEq

/-- Which consumer waits: the Converter on buffer A or the Writer on buffer B. -/
inductive Consumer where
  | converter | writer
  deriving DecidableEq

/-- Second half of the loop condition: `dist <= 1` (line 212), `dist < DUMP_SIZE`
(line 262). -/
def Consumer.fewElements : Consumer → Nat → Bool
  | .converter, dist => decide (dist ≤ 1)
  | .writer, dist => decide (dist < DUMP_SIZE)

/-- State of one handshake: the flag `reading_buffer_free` or `writing_buffer_free`, the
distance from consumer to producer index (fixed, the producer pushes nothing more), the two
program points. -/
structure Handshake where
  free : Bool
  dist : Nat
  ppc : FinishPc
  cpc : WaitPc
  deriving DecidableEq

/-- The producer has pushed its last chunk, the buffer is empty and the consumer, holding the
mutex, is about to test its loop condition. -/
def Handshake.init : Handshake := ⟨false, 1, .setFlag, .test⟩

/-- Who moves. -/
inductive Side where
  | producer | consumer
  deriving DecidableEq

/-- One statement.  `pthread_cond_signal` wakes a thread blocked on the condition when there
is one and has no effect otherwise; a woken consumer tests its loop condition again. -/
def handshakeStep (who : Consumer) (s : Handshake) : Side → Option Handshake
  | .producer =>
    match s.ppc with
    | .setFlag => some { s with free := true, ppc := .signal }
    | .signal =>
      some { s with ppc := .exited, cpc := if s.cpc = .blocked then .test else s.cpc }
    | .exited => none
  | .consumer =>
    match s.cpc with
    | .test =>
      if !s.free && who.fewElements s.dist then some { s with cpc := .callWait }
      else some { s with cpc := .past }
    | .callWait => some { s with cpc := .blocked }
    | .blocked => none
    | .past => none

/-- A sequence of statements. -/
def handshakeRun (who : Consumer) : List Side → Handshake → Option Handshake
  | [], s => some s
  | side :: rest, s =>
    match handshakeStep who s side with
    | none => none
    | some s1 => handshakeRun who rest s1

/-! ## The program: the wait loops of the consumers statement by statement

In `guardedStep` a thread that would wait is simply not enabled.  That is exact for the two
producers: what they wait for (room in the buffer) changes only inside the critical section
of the consumer, which signals `reading_can_produce` / `writing_can_produce` before it
unlocks (lines 224 and 274), and `pthread_cond_wait` releases the mutex and blocks in one
step, so no wake-up of a producer can be lost.  It is not exact for the two consumers: the
finished flags are stored and signalled outside the mutex (lines 180-181 and 244-245), so a
consumer that has tested its loop condition (line 212, line 262) and then calls
`waitCondition` (line 213, line 263) may block after the last signal was sent.  In the
model below the test, the call and the blocked state are separate program points, and a
signal wakes a consumer only if it is blocked.  A return of `pthread_cond_wait` without a
signal, which POSIX allows but does not promise, is not a step of the model. -/

/-- Program points of `readFile`: `fread` (line 159), the critical section (lines 161-173),
the flag assignment (line 180), the `signalCondition` (line 181), `pthread_exit`. -/
inductive ReaderLoc where
  | fread | push | setFlag | signal | done
  deriving DecidableEq

/-- Program points of `convertFile`: the loop test (line 207), the lock with the test of the
wait loop (lines 209-212), the call of `waitCondition` with the mutex held (line 213),
blocked inside `pthread_cond_wait`, the critical section on buffer B (lines 231-240), the
flag assignment (line 244), the `signalCondition` (line 245), `pthread_exit`. -/
inductive ConverterLoc where
  | check | take | callWait | blocked | put | setFlag | signal | done
  deriving DecidableEq

/-- Program points of `writeFile`: the loop test (line 257), the lock with the test of the
wait loop (lines 258-262), the call of `waitCondition` with the mutex held (line 263),
blocked inside `pthread_cond_wait`, the `fwrite` (line 279), `pthread_exit`. -/
inductive WriterLoc where
  | check | drain | callWait | blocked | fwrite | done
  deriving DecidableEq

/-- Effect of `signalCondition(&reading_can_consume)` on the Converter: when it is blocked in
`pthread_cond_wait` it returns from it, computes `dist` again (line 214) and tests the loop
condition again, which is what it does at `take`; otherwise the signal has no effect. -/
def ConverterLoc.signalled : ConverterLoc → ConverterLoc
  | .blocked => .take
  | .check => .check
  | .take => .take
  | .callWait => .callWait
  | .put => .put
  | .setFlag => .setFlag
  | .signal => .signal
  | .done => .done

/-- Effect of `signalCondition(&writing_can_consume)` on the Writer. -/
def WriterLoc.signalled : WriterLoc → WriterLoc
  | .blocked => .drain
  | .check => .check
  | .drain => .drain
  | .callWait => .callWait
  | .fwrite => .fwrite
  | .done => .done

/-- State of the whole process, as `Pipeline` but with the finer program points. -/
structure Program where
  /-- part of the input file not read yet -/
  file : List Nat
  rloc : ReaderLoc
  /-- the `c` characters that `fread` put in the `tmp` of the Reader -/
  rtmp : List Nat
  /-- buffer A -/
  A : Ring
  reading_buffer_free : Bool
  /-- whether `reading_mutex` was left locked by the `continue` of line 217 -/
  reading_mutex_held : Bool
  cloc : ConverterLoc
  acc : Accumulator
  /-- the local `val` of the Converter -/
  val : Nat
  /-- buffer B -/
  B : Ring
  writing_buffer_free : Bool
  wloc : WriterLoc
  /-- the `dist - 1` bytes in the `tmp` of the Writer -/
  wtmp : List Nat
  /-- bytes written to the output file -/
  output : List Nat
  /-- character reported by `THROW_ERROR` when the process was ended by `exit(-1)` -/
  aborted : Option Nat

/-- State set up by `main` before the threads start. -/
def Program.init (input : List Nat) : Program :=
  { file := input, rloc := .fread, rtmp := [],
    A := Ring.init, reading_buffer_free := false, reading_mutex_held := false,
    cloc := .check, acc := Accumulator.init, val := 0,
    B := Ring.init, writing_buffer_free := false,
    wloc := .check, wtmp := [], output := [], aborted := none }

/-- One step of `readFile`.  The critical section needs `reading_mutex`, which the Converter
holds between its test and its call of `waitCondition` and after the `continue` of line 217;
it ends with the signal of line 172.  The flag assignment and the last signal are two steps
and need no mutex. -/
def readFile_step (short : Nat) (p : Program) : Option Program :=
  match p.rloc with
  | .fread =>
    let c := min (min (short + 1) DUMP_SIZE) p.file.length
    some { p with rtmp := p.file.take c, file := p.file.drop c, rloc := .push }
  | .push =>
    if p.reading_mutex_held || decide (p.cloc = .callWait) then none
    else
      match readFile_push p.rtmp p.A with
      | none => none
      | some a =>
        some { p with
          A := a, rloc := if p.rtmp.length ≠ 0 then .fread else .setFlag,
          cloc := p.cloc.signalled }
  | .setFlag => some { p with reading_buffer_free := true, rloc := .signal }
  | .signal => some { p with cloc := p.cloc.signalled, rloc := .done }
  | .done => none

/-- One step of `convertFile`.  At `take` the loop condition of line 212 is tested: when it
holds the Converter goes on to call `waitCondition`, else it runs the rest of the critical
section as in `convertFile_guarded`.  The critical section on buffer B needs `writing_mutex`,
which the Writer holds between its test and its call of `waitCondition`; it ends with the
signal of line 239. -/
def convertFile_step (p : Program) : Option Program :=
  match p.cloc with
  | .check =>
    if !p.reading_buffer_free || decide (getDistanceInBuffer p.A.cons p.A.prod ≠ 1) then
      some { p with cloc := .take }
    else some { p with cloc := .setFlag }
  | .take =>
    if p.reading_mutex_held then none
    else
      match convertFile_take p.reading_buffer_free p.A with
      | none => some { p with cloc := .callWait }
      | some (none, _) => some { p with reading_mutex_held := true, cloc := .check }
      | some (some c, a) =>
        let acc1 := acceptChar p.acc c
        if acc1.count = 2 then
          match convertCharsToU8 acc1.vals with
          | .error e => some { p with A := a, acc := acc1, aborted := some e }
          | .ok val => some { p with A := a, acc := acc1, val := val, cloc := .put }
        else some { p with A := a, acc := acc1, cloc := .check }
  | .callWait => some { p with cloc := .blocked }
  | .blocked => none
  | .put =>
    if p.wloc = .callWait then none
    else
      match convertFile_put p.val p.B with
      | none => none
      | some b =>
        some { p with
          B := b, acc := ⟨0, p.acc.vals⟩, cloc := .check, wloc := p.wloc.signalled }
  | .setFlag => some { p with writing_buffer_free := true, cloc := .signal }
  | .signal => some { p with wloc := p.wloc.signalled, cloc := .done }
  | .done => none

/-- One step of `writeFile`.  At `drain` the loop condition of line 262 is tested: when it
holds the Writer goes on to call `waitCondition`, else it runs the rest of the critical
section as in `writeFile_guarded`. -/
def writeFile_step (p : Program) : Option Program :=
  match p.wloc with
  | .check =>
    if !p.writing_buffer_free || decide (getDistanceInBuffer p.B.cons p.B.prod ≠ 1) then
      some { p with wloc := .drain }
    else some { p with wloc := .done }
  | .drain =>
    match writeFile_drain p.writing_buffer_free p.B with
    | none => some { p with wloc := .callWait }
    | some (tmp, b) => some { p with B := b, wtmp := tmp, wloc := .fwrite }
  | .callWait => some { p with wloc := .blocked }
  | .blocked => none
  | .fwrite => some { p with output := p.output ++ p.wtmp, wloc := .check }
  | .done => none

/-- One step of the process; nothing moves once `exit(-1)` was called. -/
def step (p : Program) (t : Thread) : Option Program :=
  if p.aborted.isSome then none
  else
    match t with
    | .reader short => readFile_step short p
    | .converter => convertFile_step p
    | .writer => writeFile_step p

/-- A run of the process under a given interleaving. -/
def run : List Thread → Program → Option Program
  | [], p => some p
  | t :: ts, p =>
    match step p t with
    | none => none
    | some p1 => run ts p1

/-- All three threads reached `pthread_exit`. -/
def Program.terminated (p : Program) : Prop :=
  p.rloc = .done ∧ p.cloc = .done ∧ p.wloc = .done

instance (p : Program) : Decidable p.terminated := by
  unfold Program.terminated; infer_instance

/-- The process is over: the three threads reached `pthread_exit`, or `exit(-1)` ended it
and its threads with it. -/
def Program.ended (p : Program) : Prop := p.terminated ∨ p.aborted.isSome = true

instance (p : Program) : Decidable p.ended := by
  unfold Program.ended; infer_instance

/-- A consumer is blocked in `pthread_cond_wait` although its producer has exited: the state
a lost wake-up leaves behind. -/
def Program.lostWakeup (p : Program) : Prop :=
  (p.cloc = .blocked ∧ p.rloc = .done) ∨ (p.wloc = .blocked ∧ p.cloc = .done)

instance (p : Program) : Decidable p.lostWakeup := by
  unfold Program.lostWakeup; infer_instance

/-- Program point of the Reader in the abstraction. -/
def ReaderLoc.abstract : ReaderLoc → ReaderPc
  | .fread => .fread
  | .push => .push
  | .setFlag => .finish
  | .signal => .done
  | .done => .done

/-- Program point of the Converter in the abstraction: a Converter anywhere in its wait loop
stands before its critical section. -/
def ConverterLoc.abstract : ConverterLoc → ConverterPc
  | .check => .check
  | .take => .take
  | .callWait => .take
  | .blocked => .take
  | .put => .put
  | .setFlag => .finish
  | .signal => .done
  | .done => .done

/-- Program point of the Writer in the abstraction. -/
def WriterLoc.abstract : WriterLoc → WriterPc
  | .check => .check
  | .drain => .drain
  | .callWait => .drain
  | .blocked => .drain
  | .fwrite => .fwrite
  | .done => .done

/-- State of the abstraction that a state of the program stands for. -/
def Program.abstract (p : Program) : Pipeline :=
  { file := p.file, rpc := p.rloc.abstract, rtmp := p.rtmp,
    A := p.A, reading_buffer_free := p.reading_buffer_free,
    reading_mutex_held := p.reading_mutex_held,
    cpc := p.cloc.abstract, acc := p.acc, val := p.val,
    B := p.B, writing_buffer_free := p.writing_buffer_free,
    wpc := p.wloc.abstract, wtmp := p.wtmp, output := p.output, aborted := p.aborted }

/-- Program point of the Reader for a program point of the abstraction. -/
def ReaderPc.concrete : ReaderPc → ReaderLoc
  | .fread => .fread
  | .push => .push
  | .finish => .setFlag
  | .done => .done

/-- Program point of the Converter for a program point of the abstraction. -/
def ConverterPc.concrete : ConverterPc → ConverterLoc
  | .check => .check
  | .take => .take
  | .put => .put
  | .finish => .setFlag
  | .done => .done

/-- Program point of the Writer for a program point of the abstraction. -/
def WriterPc.concrete : WriterPc → WriterLoc
  | .check => .check
  | .drain => .drain
  | .fwrite => .fwrite
  | .done => .done

/-- State of the program in which no consumer is in its wait loop, for a state of the
abstraction. -/
def Pipeline.concrete (s : Pipeline) : Program :=
  { file := s.file, rloc := s.rpc.concrete, rtmp := s.rtmp,
    A := s.A, reading_buffer_free := s.reading_buffer_free,
    reading_mutex_held := s.reading_mutex_held,
    cloc := s.cpc.concrete, acc := s.acc, val := s.val,
    B := s.B, writing_buffer_free := s.writing_buffer_free,
    wloc := s.wpc.concrete, wtmp := s.wtmp, output := s.output, aborted := s.aborted }

/-- What is known of the buffers while a consumer is in its wait loop: the buffer is as it
was when the loop condition was tested. -/
structure WaitInv (p : Program) : Prop where
  conv : p.cloc = .callWait ∨ p.cloc = .blocked →
    getDistanceInBuffer p.A.cons p.A.prod ≤ 1
  writ : p.wloc = .callWait ∨ p.wloc = .blocked →
    getDistanceInBuffer p.B.cons p.B.prod < DUMP_SIZE

/-! ## Concrete runs of the program -/

/-- An interleaving under which the three threads terminate on `demoInput`, the Reader
getting two characters per `fread`.  Converter and Writer start first and block in their
wait loops; the pushes of the Reader wake the Converter, the pushes and the last signal of
the Converter wake the Writer. -/
def demoSchedule : List Thread :=
  [.converter, .converter, .converter, .writer, .writer, .writer,
   .reader 1, .reader 1,
   .converter, .converter, .converter, .converter, .converter, .converter,
   .reader 1, .reader 1,
   .converter, .converter, .converter, .converter, .converter, .converter, .converter,
   .writer, .writer,
   .reader 1, .reader 1, .converter, .converter,
   .reader 1, .reader 1, .converter, .converter, .converter, .converter,
   .writer, .writer, .writer]

/-- State reached by `demoSchedule`. -/
def demoFinal : Program :=
  (run demoSchedule (Program.init demoInput)).getD (Program.init [])

/-- An interleaving after which Converter and Writer are both blocked in
`pthread_cond_wait` and the Reader has not read anything yet. -/
def waitingSchedule : List Thread :=
  [.converter, .converter, .converter, .writer, .writer, .writer]

/-- State reached by `waitingSchedule`. -/
def waitingState : Program :=
  (run waitingSchedule (Program.init demoInput)).getD (Program.init [])

/-- The interleaving of the lost wake-up, on the empty input: the Reader reads nothing and
leaves its critical section; the Converter passes its loop test and tests the condition of
its wait loop; the Reader sets the flag and signals; the Converter calls `waitCondition`;
the Writer goes to wait too. -/
def lostWakeupSchedule : List Thread :=
  [.reader 0, .reader 0, .converter, .converter, .reader 0, .reader 0, .converter,
   .writer, .writer, .writer]

/-- State reached by `lostWakeupSchedule`. -/
def lostWakeupState : Program :=
  (run lostWakeupSchedule (Program.init [])).getD (Program.init demoInput)

/-- An interleaving on the input `4G` up to the decoding of the pair. -/
def fatalSchedule : List Thread :=
  [.reader 1, .reader 1, .converter, .converter, .converter, .converter]

/-- State of the abstraction reached by `fatalSchedule`. -/
def fatalState : Pipeline :=
  (guardedRun fatalSchedule (Pipeline.init (bytesOf "4G"))).getD (Pipeline.init [])

/-! ## A drain larger than `DUMP_SIZE` -/

/-- Input of 600 digits `0`. -/
def longInput : List Nat := List.replicate 600 48

/-- Steps of the Converter for `n` pairs: loop test, first character, loop test, second
character with decoding, push. -/
def convertPairs : Nat → List Thread
  | 0 => []
  | n + 1 => .converter :: .converter :: .converter :: .converter :: .converter :: convertPairs n

/-- An interleaving in which the Writer is not scheduled until 300 bytes are unread in
buffer B: three chunks read and converted, then the loop test of the Writer, which is left
about to enter its critical section. -/
def lateWriterSchedule : List Thread :=
  [.reader 255, .reader 255] ++ convertPairs 128 ++
  [.reader 255, .reader 255] ++ convertPairs 128 ++
  [.reader 255, .reader 255] ++ convertPairs 44 ++
  [.writer]

/-! ## The decoder: auxiliary facts -/

theorem significant_iff (c : Nat) : significant c = decide (¬ isSeparator c) := by
  unfold significant isSeparator
  by_cases h1 : c = 32 <;> by_cases h2 : c = 0 <;> by_cases h3 : c = 13 <;>
    by_cases h4 : c = 10 <;> by_cases h5 : c = 9 <;> simp [h1, h2, h3, h4, h5]

theorem filter_significant (input : List Nat) :
    input.filter significant = stripSeparators input := by
  unfold stripSeparators
  congr 1
  funext c
  exact significant_iff c

/-- The decoder reads only `chars[0]` and `chars[1]`. -/
theorem convertCharsToU8_congr (f g : Nat → Nat) (h0 : f 0 = g 0) (h1 : f 1 = g 1) :
    convertCharsToU8 f = convertCharsToU8 g := by
  unfold convertCharsToU8
  rw [h0, h1]

theorem convertLoop_eq_decodePairs (input : List Nat) :
    ∀ vals : Nat → Nat,
      convertLoop ⟨0, vals⟩ input = decodePairs (input.filter significant) ∧
      convertLoop ⟨1, vals⟩ input = decodePairs (vals 0 :: input.filter significant) := by
  induction input with
  | nil => intro vals; simp [convertLoop, decodePairs]
  | cons c cs ih =>
    intro vals
    by_cases hc : significant c = true
    · constructor
      · have h := (ih (store vals 0 c)).2
        simp [convertLoop, acceptChar, hc, List.filter_cons, h, store]
      · have h := (ih (store vals 1 c)).1
        have hcg : convertCharsToU8 (store vals 1 c) =
            convertCharsToU8 (store (store (fun _ => 0) 0 (vals 0)) 1 c) :=
          convertCharsToU8_congr _ _ (by simp [store]) (by simp [store])
        simp only [convertLoop, acceptChar, hc, List.filter_cons, if_true, decodePairs]
        rw [hcg]
        cases convertCharsToU8 (store (store (fun _ => 0) 0 (vals 0)) 1 c) with
        | error e => simp
        | ok v => simp [h]
    · have hc2 : significant c = false := by simpa using hc
      constructor
      · simpa [convertLoop, acceptChar, hc2, List.filter_cons] using (ih vals).1
      · simpa [convertLoop, acceptChar, hc2, List.filter_cons] using (ih vals).2

/-- The Converter is the pair-wise decoder applied to the input without its separators. -/
theorem convertFile_eq_decodePairs (input : List Nat) :
    convertFile input = decodePairs (stripSeparators input) := by
  unfold convertFile Accumulator.init
  rw [(convertLoop_eq_decodePairs input _).1, filter_significant]

theorem specNibble_lt (c : Nat) (h : isHexDigit c) : specNibble c < 16 := by
  unfold specNibble isHexDigit at *
  split_ifs <;> omega

theorem lor_nibbles : ∀ hi, hi < 16 → ∀ lo, lo < 16 →
    ((((0 * 16) % 256 ||| hi % 256) * 16) % 256 ||| lo % 256) = (hi <<< 4) ||| lo := by
  decide

theorem round_of_hex (r c : Nat) (h : isHexDigit c) :
    convertCharsToU8_round r c = .ok ((r * 16) % 256 ||| specNibble c % 256) := by
  unfold convertCharsToU8_round specNibble
  unfold isHexDigit at h
  split_ifs <;> first | rfl | omega

theorem round_of_not_hex (r c : Nat) (h : ¬ isHexDigit c) :
    convertCharsToU8_round r c = .error c := by
  unfold convertCharsToU8_round
  unfold isHexDigit at h
  split_ifs <;> first | rfl | omega

theorem convertCharsToU8_of_hex (f : Nat → Nat) (h0 : isHexDigit (f 0)) (h1 : isHexDigit (f 1)) :
    convertCharsToU8 f = .ok (specByte (f 0) (f 1)) := by
  unfold convertCharsToU8
  rw [round_of_hex 0 _ h0]
  simp only []
  rw [round_of_hex _ _ h1]
  unfold specByte
  rw [lor_nibbles _ (specNibble_lt _ h0) _ (specNibble_lt _ h1)]

theorem convertCharsToU8_of_not_hex (f : Nat → Nat) (h : ¬ (isHexDigit (f 0) ∧ isHexDigit (f 1))) :
    ∃ e, convertCharsToU8 f = .error e ∧ ¬ isHexDigit e ∧ (e = f 0 ∨ e = f 1) := by
  unfold convertCharsToU8
  by_cases h0 : isHexDigit (f 0)
  · have h1 : ¬ isHexDigit (f 1) := fun h1 => h ⟨h0, h1⟩
    rw [round_of_hex 0 _ h0]
    simp only []
    exact ⟨f 1, round_of_not_hex _ _ h1, h1, Or.inr rfl⟩
  · rw [round_of_not_hex 0 _ h0]
    exact ⟨f 0, rfl, h0, Or.inl rfl⟩

theorem decodePairs_of_hex (l : List Nat) (h : ∀ c ∈ l, isHexDigit c) :
    decodePairs l = (specDecode l, none) := by
  induction l using specDecode.induct with
  | case1 a b rest ih =>
    have ha : isHexDigit a := h a (by simp)
    have hb : isHexDigit b := h b (by simp)
    have hr : ∀ c ∈ rest, isHexDigit c := fun c hc => h c (by simp [hc])
    have hv := convertCharsToU8_of_hex (store (store (fun _ => 0) 0 a) 1 b)
      (by simpa [store] using ha) (by simpa [store] using hb)
    simp only [decodePairs, specDecode]
    rw [hv, ih hr]
    simp [store]
  | case2 l hl =>
    match l, hl with
    | [], _ => simp [decodePairs, specDecode]
    | [a], _ => simp [decodePairs, specDecode]
    | a :: b :: rest, hl => exact absurd rfl (hl a b rest)

theorem stripSeparators_hex (input : List Nat) (h : ∀ c ∈ input, isHexDigit c ∨ isSeparator c) :
    ∀ c ∈ stripSeparators input, isHexDigit c := by
  intro c hc
  unfold stripSeparators at hc
  rw [List.mem_filter] at hc
  rcases h c hc.1 with h1 | h1
  · exact h1
  · simp [h1] at hc

/-- On an input of hexadecimal digits and separators the Converter never fails and emits the
pair-wise decoding of the significant characters. -/
theorem convertFile_of_valid (input : List Nat)
    (h : ∀ c ∈ input, isHexDigit c ∨ isSeparator c) :
    convertFile input = (specDecode (stripSeparators input), none) := by
  rw [convertFile_eq_decodePairs]
  exact decodePairs_of_hex _ (stripSeparators_hex input h)

/-- Claim C1: for every input made only of hexadecimal digits and filtered separators, the
Converter ends without error and emits, in input order, exactly one byte per consecutive pair
of significant characters, the byte being `(nibble of first) << 4 | (nibble of second)`. -/
theorem convertFile_decodes_pairs (input : List Nat)
    (h : ∀ c ∈ input, isHexDigit c ∨ isSeparator c) :
    convertFile input = (specDecode (stripSeparators input), none) :=
  convertFile_of_valid input h

/-- Witness of C1: the input `00 ff 7f` gives the bytes `0x00 0xFF 0x7F`. -/
theorem convertFile_decodes_pairs_witness :
    (∀ c ∈ bytesOf "00 ff 7f", isHexDigit c ∨ isSeparator c) ∧
    convertFile (bytesOf "00 ff 7f") = ([0x00, 0xFF, 0x7F], none) :=
  ⟨by decide, convertFile_decodes_pairs (bytesOf "00 ff 7f") (by decide)⟩

/-- The decoder fails exactly when a complete pair holds a character that is not a digit. -/
theorem decodePairs_error_iff (l : List Nat) :
    (decodePairs l).2 ≠ none ↔
      ∃ i c, i < 2 * (l.length / 2) ∧ l[i]? = some c ∧ ¬ isHexDigit c := by
  induction l using specDecode.induct with
  | case1 a b rest ih =>
    have hlen : 2 * ((a :: b :: rest).length / 2) = 2 * (rest.length / 2) + 2 := by
      simp only [List.length_cons]; omega
    rw [hlen]
    by_cases hab : isHexDigit a ∧ isHexDigit b
    · have hv := convertCharsToU8_of_hex (store (store (fun _ => 0) 0 a) 1 b)
        (by simpa [store] using hab.1) (by simpa [store] using hab.2)
      simp only [decodePairs]
      rw [hv]
      simp only []
      rw [ih]
      constructor
      · rintro ⟨i, c, hi, hc, hn⟩
        exact ⟨i + 2, c, by omega, by simpa using hc, hn⟩
      · rintro ⟨i, c, hi, hc, hn⟩
        match i, hi, hc with
        | 0, _, hc => simp at hc; exact absurd hab.1 (hc ▸ hn)
        | 1, _, hc => simp at hc; exact absurd hab.2 (hc ▸ hn)
        | i + 2, hi, hc => exact ⟨i, c, by omega, by simpa using hc, hn⟩
    · obtain ⟨e, he, -, -⟩ := convertCharsToU8_of_not_hex (store (store (fun _ => 0) 0 a) 1 b)
        (by simpa [store] using hab)
      simp only [decodePairs]
      rw [he]
      simp only [ne_eq, reduceCtorEq, not_false_eq_true, true_iff]
      by_cases ha : isHexDigit a
      · exact ⟨1, b, by omega, by simp, fun hb => hab ⟨ha, hb⟩⟩
      · exact ⟨0, a, by omega, by simp, ha⟩
  | case2 l hl =>
    match l, hl with
    | [], _ => simp [decodePairs]
    | [a], _ => simp [decodePairs]
    | a :: b :: rest, hl => exact absurd rfl (hl a b rest)

/-- The character reported by a failing decoder is not a hexadecimal digit. -/
theorem decodePairs_error_not_hex (l : List Nat) (e : Nat) (h : (decodePairs l).2 = some e) :
    ¬ isHexDigit e ∧ e ∈ l := by
  induction l using specDecode.induct with
  | case1 a b rest ih =>
    by_cases hab : isHexDigit a ∧ isHexDigit b
    · have hv := convertCharsToU8_of_hex (store (store (fun _ => 0) 0 a) 1 b)
        (by simpa [store] using hab.1) (by simpa [store] using hab.2)
      simp only [decodePairs] at h
      rw [hv] at h
      have := ih h
      exact ⟨this.1, by simp [this.2]⟩
    · obtain ⟨e2, he, hne, hmem⟩ :=
        convertCharsToU8_of_not_hex (store (store (fun _ => 0) 0 a) 1 b)
          (by simpa [store] using hab)
      simp only [decodePairs] at h
      rw [he] at h
      simp only [Option.some.injEq] at h
      subst h
      refine ⟨hne, ?_⟩
      rcases hmem with h | h <;> simp [h, store]
  | case2 l hl =>
    match l, hl with
    | [], _ => simp [decodePairs] at h
    | [a], _ => simp [decodePairs] at h
    | a :: b :: rest, hl => exact absurd rfl (hl a b rest)

/-- Counterexample to claim C2 as stated: the input `41 G` contains `G`, neither a digit nor a
separator, and the Converter still completes normally (the lone `G` is never decoded). -/
theorem lone_invalid_character_not_rejected :
    (∃ c ∈ bytesOf "41 G", ¬ isHexDigit c ∧ ¬ isSeparator c) ∧
    convertFile (bytesOf "41 G") = ([0x41], none) := by
  decide

/-- Claim C2, amended: if, once the separators are deleted, a character standing in a complete
pair (position below `2 * floor(n / 2)`) is not a hexadecimal digit, the Converter ends in a
fatal decoding error, and the character it reports is neither a digit nor a separator. -/
theorem convertFile_rejects_invalid_pair (input : List Nat) (i c : Nat)
    (hi : i < 2 * ((stripSeparators input).length / 2))
    (hc : (stripSeparators input)[i]? = some c)
    (hn : ¬ isHexDigit c) :
    ∃ e, (convertFile input).2 = some e ∧ ¬ isHexDigit e ∧ ¬ isSeparator e := by
  rw [convertFile_eq_decodePairs]
  have h := (decodePairs_error_iff (stripSeparators input)).2 ⟨i, c, hi, hc, hn⟩
  obtain ⟨e, he⟩ := Option.ne_none_iff_exists'.1 h
  have h2 := decodePairs_error_not_hex _ e he
  refine ⟨e, he, h2.1, ?_⟩
  have hm := h2.2
  unfold stripSeparators at hm
  rw [List.mem_filter] at hm
  simpa using hm.2

/-- Witness of the amended C2: the input `4G` is rejected. -/
theorem convertFile_rejects_invalid_pair_witness :
    ∃ e, (convertFile (bytesOf "4G")).2 = some e ∧ ¬ isHexDigit e ∧ ¬ isSeparator e :=
  convertFile_rejects_invalid_pair (bytesOf "4G") 1 71 (by decide) (by decide) (by decide)

theorem upperHexDigit_hex : ∀ n, n < 16 → isHexDigit (upperHexDigit n) := by decide

theorem upperHexDigit_not_sep : ∀ n, n < 16 → significant (upperHexDigit n) = true := by decide

set_option maxRecDepth 100000 in
theorem specByte_upperHexDigit :
    ∀ b, b < 256 → specByte (upperHexDigit (b / 16)) (upperHexDigit (b % 16)) = b := by
  decide

theorem strip_encodeHex (bs : List Nat) (h : ∀ b ∈ bs, b < 256) :
    (encodeHex bs).filter significant =
      bs.flatMap (fun b => [upperHexDigit (b / 16), upperHexDigit (b % 16)]) := by
  induction bs with
  | nil => simp [encodeHex]
  | cons b rest ih =>
    have hb : b < 256 := h b (by simp)
    have h1 := upperHexDigit_not_sep (b / 16) (by omega)
    have h2 := upperHexDigit_not_sep (b % 16) (by omega)
    have hr := ih (fun x hx => h x (by simp [hx]))
    cases rest with
    | nil => simp [encodeHex, List.filter_cons, h1, h2]
    | cons b2 rest2 =>
      have h3 : significant 32 = false := by decide
      rw [encodeHex]
      simp only [List.filter_cons, h1, h2, h3, if_true, List.flatMap_cons]
      rw [hr]
      simp

theorem decodePairs_digits (bs : List Nat) (h : ∀ b ∈ bs, b < 256) :
    decodePairs (bs.flatMap (fun b => [upperHexDigit (b / 16), upperHexDigit (b % 16)])) =
      (bs, none) := by
  induction bs with
  | nil => simp [decodePairs]
  | cons b rest ih =>
    have hb : b < 256 := h b (by simp)
    have hv := convertCharsToU8_of_hex
      (store (store (fun _ => 0) 0 (upperHexDigit (b / 16))) 1 (upperHexDigit (b % 16)))
      (by simpa [store] using upperHexDigit_hex (b / 16) (by omega))
      (by simpa [store] using upperHexDigit_hex (b % 16) (by omega))
    have hr := ih (fun x hx => h x (by simp [hx]))
    rw [List.flatMap_cons]
    show decodePairs (upperHexDigit (b / 16) :: upperHexDigit (b % 16) :: rest.flatMap _) = _
    rw [decodePairs, hv, hr]
    simp [store, specByte_upperHexDigit b hb]

/-- Claim C3 (round trip): a byte sequence written as uppercase hexadecimal pairs separated by
single spaces is decoded by the Converter, without error, to exactly that sequence. -/
theorem convertFile_encodeHex (bs : List Nat) (h : ∀ b ∈ bs, b < 256) :
    convertFile (encodeHex bs) = (bs, none) := by
  rw [convertFile_eq_decodePairs, ← filter_significant, strip_encodeHex bs h]
  exact decodePairs_digits bs h

/-- Witness of C3 on four bytes. -/
theorem convertFile_encodeHex_witness :
    encodeHex [0x00, 0xFF, 0x7F, 0x0A] = bytesOf "00 FF 7F 0A" ∧
    convertFile (bytesOf "00 FF 7F 0A") = ([0x00, 0xFF, 0x7F, 0x0A], none) :=
  ⟨by decide, convertFile_encodeHex [0x00, 0xFF, 0x7F, 0x0A] (by decide)⟩

/-- Claim C4 (separator insensitivity): two inputs that are equal once their separators are
deleted give the same result, bytes and error alike. -/
theorem convertFile_separator_insensitive (xs ys : List Nat)
    (h : stripSeparators xs = stripSeparators ys) :
    convertFile xs = convertFile ys := by
  rw [convertFile_eq_decodePairs, convertFile_eq_decodePairs, h]

/-- Witness of C4: separators around and inside pairs change neither the bytes nor the
error. -/
theorem convertFile_separator_insensitive_witness :
    convertFile (bytesOf " 4\t\r\n1 4  G") = convertFile (bytesOf "414G") ∧
    convertFile (bytesOf "414G") = ([0x41], some 71) :=
  ⟨convertFile_separator_insensitive (bytesOf " 4\t\r\n1 4  G") (bytesOf "414G") (by decide),
   by decide⟩

theorem specDecode_length (l : List Nat) : (specDecode l).length = l.length / 2 := by
  induction l using specDecode.induct with
  | case1 a b rest ih => simp only [specDecode, List.length_cons, ih]; omega
  | case2 l hl =>
    match l, hl with
    | [], _ => simp [specDecode]
    | [a], _ => simp [specDecode]
    | a :: b :: rest, hl => exact absurd rfl (hl a b rest)

theorem specDecode_dropLast (l : List Nat) (h : l.length % 2 = 1) :
    specDecode l = specDecode l.dropLast := by
  induction l using specDecode.induct with
  | case1 a b rest ih =>
    have hr : rest.length % 2 = 1 := by simp only [List.length_cons] at h; omega
    have hne : rest ≠ [] := by intro h0; simp [h0] at hr
    obtain ⟨x, xs, rfl⟩ := List.exists_cons_of_ne_nil hne
    have := ih hr
    simp only [List.dropLast_cons₂, specDecode]
    simp only [List.dropLast_cons₂] at this
    rw [this]
  | case2 l hl =>
    match l, hl with
    | [], _ => simp [specDecode]
    | [a], _ => simp [specDecode]
    | a :: b :: rest, hl => exact absurd rfl (hl a b rest)

/-- Claim C5: on an input of digits and separators with an odd number of significant
characters the Converter ends without error, its output is the decoding of the significant
characters without the last one, and exactly that one character is not decoded. -/
theorem convertFile_drops_lone_character (input : List Nat)
    (h : ∀ c ∈ input, isHexDigit c ∨ isSeparator c)
    (hodd : (stripSeparators input).length % 2 = 1) :
    convertFile input = (specDecode (stripSeparators input).dropLast, none) ∧
    (convertFile input).1.length * 2 = (stripSeparators input).length - 1 := by
  rw [convertFile_of_valid input h]
  refine ⟨by rw [specDecode_dropLast _ hodd], ?_⟩
  simp only [specDecode_length]
  omega

/-- Witness of C5: the input `41 42 4` gives the bytes `0x41 0x42`. -/
theorem convertFile_drops_lone_character_witness :
    convertFile (bytesOf "41 42 4") = ([0x41, 0x42], none) ∧
    (convertFile (bytesOf "41 42 4")).1.length * 2 = 5 - 1 :=
  convertFile_drops_lone_character (bytesOf "41 42 4") (by decide) (by decide)

/-- Claim C10: for indices below 512, `getDistanceInBuffer a b` is `(b - a) mod 512`, equals
the same expression computed over the integers (so no `u32` operation wraps), is `0` when
`a = b`, and is below 512. -/
theorem getDistanceInBuffer_eq (a b : Nat) (ha : a < 512) (hb : b < 512) :
    (getDistanceInBuffer a b : Int) = ((b : Int) - a) % 512 ∧
    (getDistanceInBuffer a b : Int) = distanceExact a b ∧
    (a = b → getDistanceInBuffer a b = 0) ∧
    getDistanceInBuffer a b < 512 := by
  unfold getDistanceInBuffer distanceExact BUFFER_SIZE U32
  split_ifs with h
  · refine ⟨?_, ?_, ?_, ?_⟩ <;> omega
  · refine ⟨?_, ?_, ?_, ?_⟩ <;> omega

/-- Witness of C10 at the initial indices of `main`. -/
theorem getDistanceInBuffer_eq_witness :
    (getDistanceInBuffer 511 0 : Int) = ((0 : Int) - 511) % 512 ∧
    (getDistanceInBuffer 511 0 : Int) = distanceExact 511 0 ∧
    (511 = 0 → getDistanceInBuffer 511 0 = 0) ∧
    getDistanceInBuffer 511 0 < 512 :=
  getDistanceInBuffer_eq 511 0 (by decide) (by decide)

/-! ## The circular buffers: auxiliary facts -/

theorem dist_of_lt (a b : Nat) (ha : a < 512) (hb : b < 512) :
    getDistanceInBuffer a b = (b + 512 - a) % 512 := by
  unfold getDistanceInBuffer BUFFER_SIZE U32
  split_ifs <;> omega

theorem slots_length (buf : Nat → Nat) (n : Nat) : ∀ s, (slots buf s n).length = n := by
  induction n with
  | zero => intro s; rfl
  | succ n ih => intro s; simp [slots, ih]

theorem slots_append (buf : Nat → Nat) (n m : Nat) :
    ∀ s, slots buf s (n + m) = slots buf s n ++ slots buf (s + n) m := by
  induction n with
  | zero => intro s; simp [slots]
  | succ n ih =>
    intro s
    have h : n + 1 + m = (n + m) + 1 := by omega
    rw [h, slots, slots, ih (s + 1)]
    have h2 : s + 1 + n = s + (n + 1) := by omega
    rw [h2]
    rfl

theorem slots_congr (buf buf2 : Nat → Nat) (n : Nat) :
    ∀ s, (∀ k, k < n → buf ((s + k) % 512) = buf2 ((s + k) % 512)) →
      slots buf s n = slots buf2 s n := by
  induction n with
  | zero => intro s _; rfl
  | succ n ih =>
    intro s h
    have h0 := h 0 (by omega)
    have hr := ih (s + 1) (fun k hk => by
      have := h (k + 1) (by omega)
      have e : s + 1 + k = s + (k + 1) := by omega
      rw [e]; exact this)
    simp only [slots, BUFFER_SIZE]
    rw [hr]
    simp only [Nat.add_zero] at h0
    rw [h0]

theorem slots_shift (buf : Nat → Nat) (n : Nat) :
    ∀ s s2, s % 512 = s2 % 512 → slots buf s n = slots buf s2 n := by
  induction n with
  | zero => intro s s2 _; rfl
  | succ n ih =>
    intro s s2 h
    simp only [slots, BUFFER_SIZE]
    rw [h, ih (s + 1) (s2 + 1) (by omega)]

theorem copyIn_other (tmp : List Nat) :
    ∀ (buf : Nat → Nat) (p i j : Nat),
      (∀ k, k < tmp.length → j ≠ ((p + i + k) % U32) % BUFFER_SIZE) →
      copyIn buf p i tmp j = buf j := by
  induction tmp with
  | nil => intro buf p i j _; rfl
  | cons x rest ih =>
    intro buf p i j h
    rw [copyIn, ih]
    · have h0 := h 0 (by simp)
      simp only [Nat.add_zero] at h0
      simp [store, h0]
    · intro k hk
      have := h (k + 1) (by simp; omega)
      have e : p + (i + 1) + k = p + i + (k + 1) := by omega
      rw [e]; exact this

theorem slots_copyIn (tmp : List Nat) :
    ∀ (buf : Nat → Nat) (p i : Nat), p < 512 → i + tmp.length ≤ 512 →
      slots (copyIn buf p i tmp) (p + i) tmp.length = tmp := by
  induction tmp with
  | nil => intro buf p i _ _; rfl
  | cons x rest ih =>
    intro buf p i hp hi
    simp only [List.length_cons] at hi
    rw [List.length_cons, slots, copyIn]
    have e : p + i + 1 = p + (i + 1) := by omega
    rw [e, ih _ p (i + 1) hp (by omega)]
    rw [copyIn_other]
    · have : (p + i) % BUFFER_SIZE = ((p + i) % U32) % BUFFER_SIZE := by
        unfold BUFFER_SIZE U32; omega
      simp [store, this]
    · intro k hk
      unfold BUFFER_SIZE U32
      omega

theorem range_map_slots (buf : Nat → Nat) (c : Nat) (n : Nat) (h : c + n < U32) :
    (List.range n).map (fun i => buf (((c + i + 1) % U32) % BUFFER_SIZE)) =
      slots buf (c + 1) n := by
  induction n with
  | zero => rfl
  | succ n ih =>
    rw [List.range_succ, List.map_append, ih (by omega), slots_append]
    congr 1
    simp only [List.map_cons, List.map_nil, slots]
    have : (c + n + 1) % U32 = c + 1 + n := by
      unfold U32 at *; omega
    rw [this]

theorem init_wf : Ring.init.wf := by
  unfold Ring.wf Ring.init BUFFER_SIZE; simp

theorem init_unread : Ring.init.unread = [] := by
  decide

/-- The Reader's push appends its chunk to the unread elements. -/
theorem readFile_push_spec (tmp : List Nat) (r r2 : Ring) (hw : r.wf)
    (hlen : tmp.length ≤ 256) (h : readFile_push tmp r = some r2) :
    r2.wf ∧ r2.unread = r.unread ++ tmp ∧ r2.cons = r.cons ∧
      tmp.length + 1 ≤ getDistanceInBuffer r.prod r.cons ∧
      r2.prod = (r.prod + tmp.length) % 512 := by
  obtain ⟨hp, hc, hne⟩ := hw
  unfold readFile_push at h
  rw [dist_of_lt _ _ hp hc] at h
  split_ifs at h with hg
  simp only [Option.some.injEq] at h
  subst h
  have hg2 : tmp.length + 1 ≤ (r.cons + 512 - r.prod) % 512 := by
    unfold U32 at hg; omega
  have hprod : ((r.prod + tmp.length) % U32) % BUFFER_SIZE = (r.prod + tmp.length) % 512 := by
    unfold U32 BUFFER_SIZE; omega
  refine ⟨⟨?_, hc, ?_⟩, ?_, rfl, ?_, hprod⟩
  · simp only [hprod]; omega
  · simp only [hprod]; omega
  · unfold Ring.unread Ring.unreadCount
    simp only [hprod]
    rw [dist_of_lt _ _ hc (by omega), dist_of_lt _ _ hc hp]
    have hcount : (((r.prod + tmp.length) % 512) + 512 - r.cons) % 512 - 1 =
        ((r.prod + 512 - r.cons) % 512 - 1) + tmp.length := by omega
    rw [hcount, slots_append]
    congr 1
    · apply slots_congr
      intro k hk
      apply copyIn_other
      intro j hj
      unfold U32 BUFFER_SIZE
      omega
    · have hs : (r.cons + 1 + ((r.prod + 512 - r.cons) % 512 - 1)) % 512 = (r.prod + 0) % 512 := by
        omega
      rw [slots_shift _ _ _ _ hs]
      exact slots_copyIn tmp r.buf r.prod 0 hp (by omega)
  · rw [dist_of_lt _ _ hp hc]; exact hg2

/-- The Converter's push appends its byte to the unread elements. -/
theorem convertFile_put_spec (val : Nat) (r r2 : Ring) (hw : r.wf)
    (h : convertFile_put val r = some r2) :
    r2.wf ∧ r2.unread = r.unread ++ [val] ∧ r2.cons = r.cons ∧
      2 ≤ getDistanceInBuffer r.prod r.cons ∧ r2.prod = (r.prod + 1) % 512 := by
  obtain ⟨hp, hc, hne⟩ := hw
  unfold convertFile_put at h
  rw [dist_of_lt _ _ hp hc] at h
  split_ifs at h with hg
  simp only [Option.some.injEq] at h
  subst h
  have hprod : ((r.prod + 1) % U32) % BUFFER_SIZE = (r.prod + 1) % 512 := by
    unfold U32 BUFFER_SIZE; omega
  refine ⟨⟨?_, hc, ?_⟩, ?_, rfl, ?_, hprod⟩
  · simp only [hprod]; omega
  · simp only [hprod]; omega
  · unfold Ring.unread Ring.unreadCount
    simp only [hprod]
    rw [dist_of_lt _ _ hc (by omega), dist_of_lt _ _ hc hp]
    have hcount : (((r.prod + 1) % 512) + 512 - r.cons) % 512 - 1 =
        ((r.prod + 512 - r.cons) % 512 - 1) + 1 := by omega
    rw [hcount, slots_append]
    congr 1
    · apply slots_congr
      intro k hk
      have : (r.cons + 1 + k) % 512 ≠ r.prod := by omega
      simp [store, this]
    · have hs : (r.cons + 1 + ((r.prod + 512 - r.cons) % 512 - 1)) % 512 = r.prod := by
        omega
      simp [slots, store, BUFFER_SIZE, hs]
  · rw [dist_of_lt _ _ hp hc]; omega

/-- The Converter's take removes the oldest unread element, or finds the finished buffer
drained. -/
theorem convertFile_take_spec (free : Bool) (r r2 : Ring) (res : Option Nat) (hw : r.wf)
    (h : convertFile_take free r = some (res, r2)) :
    r2.wf ∧ r.unread = res.toList ++ r2.unread ∧ r2.prod = r.prod ∧ r2.buf = r.buf ∧
      (res = none → r2 = r ∧ free = true ∧ r.unread = []) ∧
      (∀ c, res = some c → 2 ≤ getDistanceInBuffer r.cons r.prod ∧
        r2.cons = (r.cons + 1) % 512 ∧ c = r.buf r2.cons) := by
  obtain ⟨hp, hc, hne⟩ := hw
  unfold convertFile_take at h
  simp only [dist_of_lt _ _ hc hp] at h
  split_ifs at h with hg1 hg2
  · simp only [Option.some.injEq, Prod.mk.injEq] at h
    obtain ⟨rfl, rfl⟩ := h
    simp only [Bool.and_eq_true, decide_eq_true_eq] at hg2
    have hu : r.unread = [] := by
      unfold Ring.unread Ring.unreadCount
      rw [dist_of_lt _ _ hc hp, hg2.2]
      rfl
    exact ⟨⟨hp, hc, hne⟩, by simp [hu], rfl, rfl, fun _ => ⟨rfl, hg2.1, hu⟩, by simp⟩
  · simp only [Option.some.injEq, Prod.mk.injEq] at h
    obtain ⟨rfl, rfl⟩ := h
    have hcons : ((r.cons + 1) % U32) % BUFFER_SIZE = (r.cons + 1) % 512 := by
      unfold U32 BUFFER_SIZE; omega
    have hd : 2 ≤ (r.prod + 512 - r.cons) % 512 := by
      have h1 : 1 ≤ (r.prod + 512 - r.cons) % 512 := by omega
      cases free <;> simp at hg1 hg2 <;> omega
    refine ⟨⟨hp, ?_, ?_⟩, ?_, rfl, rfl, by simp, ?_⟩
    · simp only [hcons]; omega
    · simp only [hcons]; omega
    · unfold Ring.unread Ring.unreadCount
      simp only [hcons]
      rw [dist_of_lt _ _ hc hp, dist_of_lt _ _ (by omega) hp]
      have hcount : (r.prod + 512 - r.cons) % 512 - 1 =
          ((r.prod + 512 - (r.cons + 1) % 512) % 512 - 1) + 1 := by omega
      rw [hcount]
      show r.buf ((r.cons + 1) % 512) :: slots r.buf (r.cons + 1 + 1) _ = _
      simp only [Option.toList, List.singleton_append]
      congr 1
      apply slots_shift
      omega
    · intro c hcv
      simp only [Option.some.injEq] at hcv
      subst hcv
      rw [dist_of_lt _ _ hc hp]
      exact ⟨hd, hcons, rfl⟩

/-- The Writer's drain removes all unread elements, in order. -/
theorem writeFile_drain_spec (free : Bool) (r r2 : Ring) (tmp : List Nat) (hw : r.wf)
    (h : writeFile_drain free r = some (tmp, r2)) :
    r2.wf ∧ tmp = r.unread ∧ r2.unread = [] ∧ r2.prod = r.prod ∧ r2.buf = r.buf ∧
      r2.cons = (r.cons + (getDistanceInBuffer r.cons r.prod - 1)) % 512 ∧
      tmp.length = getDistanceInBuffer r.cons r.prod - 1 := by
  obtain ⟨hp, hc, hne⟩ := hw
  unfold writeFile_drain at h
  simp only [dist_of_lt _ _ hc hp] at h
  split_ifs at h with hg1
  simp only [Option.some.injEq, Prod.mk.injEq] at h
  obtain ⟨rfl, rfl⟩ := h
  have hd : 1 ≤ (r.prod + 512 - r.cons) % 512 := by omega
  have hn : ((r.prod + 512 - r.cons) % 512 + U32 - 1) % U32 = (r.prod + 512 - r.cons) % 512 - 1 := by
    unfold U32; omega
  have hcons : ((r.cons + (r.prod + 512 - r.cons) % 512 + U32 - 1) % U32) % BUFFER_SIZE =
      (r.cons + ((r.prod + 512 - r.cons) % 512 - 1)) % 512 := by
    unfold U32 BUFFER_SIZE; omega
  have hlist : (List.range (((r.prod + 512 - r.cons) % 512 + U32 - 1) % U32)).map
      (fun i => r.buf (((r.cons + i + 1) % U32) % BUFFER_SIZE)) = r.unread := by
    rw [hn, range_map_slots _ _ _ (by unfold U32; omega)]
    unfold Ring.unread Ring.unreadCount
    rw [dist_of_lt _ _ hc hp]
  refine ⟨⟨hp, ?_, ?_⟩, hlist, ?_, rfl, rfl, ?_, ?_⟩
  · simp only [hcons]; omega
  · simp only [hcons]; omega
  · unfold Ring.unread Ring.unreadCount
    simp only [hcons]
    rw [dist_of_lt _ _ (by omega) hp]
    have : (r.prod + 512 - (r.cons + ((r.prod + 512 - r.cons) % 512 - 1)) % 512) % 512 - 1 = 0 := by
      omega
    rw [this]; rfl
  · simp only [hcons]; rw [dist_of_lt _ _ hc hp]
  · rw [hlist]
    unfold Ring.unread
    rw [slots_length]
    rfl

/-! ## The pipeline: the invariant holds along every run -/

theorem inv_init (input : List Nat) : Inv input (Pipeline.init input) where
  wfA := init_wf
  wfB := init_wf
  rtmp_len := by simp [Pipeline.init]
  eof := by simp [Pipeline.init]
  eof_push := by simp [Pipeline.init]
  rfree := by simp [Pipeline.init]
  cdone := by simp [Pipeline.init]
  wfree := by simp [Pipeline.init]
  wdone := by simp [Pipeline.init]
  data := by
    intro _
    simp [Pipeline.init, Pipeline.bytesBehind, Pipeline.future, Pipeline.charsAhead,
      Pipeline.readerPending, init_unread, convertFile]
  abort := by simp [Pipeline.init]

theorem inv_readFile_guarded (input : List Nat) (short : Nat) (s s2 : Pipeline)
    (hi : Inv input s) (ha : s.aborted = none) (h : readFile_guarded short s = some s2) :
    Inv input s2 := by
  unfold readFile_guarded at h
  have hd := hi.data ha
  split at h
  · -- fread
    rename_i hpc
    simp only [Option.some.injEq] at h
    subst h
    refine ⟨hi.wfA, hi.wfB, ?_, ?_, ?_, ?_, hi.cdone, hi.wfree, hi.wdone, ?_, ?_⟩
    · simp [DUMP_SIZE, BUFFER_SIZE]
    · simp
    · simp only [forall_true_left]
      intro h0
      rw [List.take_eq_nil_iff] at h0
      rcases h0 with h0 | h0
      · have : s.file.length = 0 := by unfold DUMP_SIZE BUFFER_SIZE at h0; omega
        simp [List.length_eq_zero.1 this]
      · simp [h0]
    · have := hi.rfree; simp [hpc] at this ⊢; exact this
    · intro _
      simpa [Pipeline.bytesBehind, Pipeline.future, Pipeline.charsAhead,
        Pipeline.readerPending, hpc] using hd
    · intro e he; exact absurd he (by simp [ha])
  · -- push
    rename_i hpc
    by_cases hm : s.reading_mutex_held = true
    · rw [if_pos hm] at h; exact absurd h (by simp)
    rw [if_neg hm] at h
    split at h
    · exact absurd h (by simp)
    · rename_i a hpush
      simp only [Option.some.injEq] at h
      subst h
      obtain ⟨hw, hu, -, -, -⟩ := readFile_push_spec _ _ _ hi.wfA hi.rtmp_len hpush
      have hcd : s.cpc ≠ .finish ∧ s.cpc ≠ .done := by
        constructor <;> intro hc
        · have := (hi.cdone (Or.inl hc)).1; rw [hi.rfree] at this; simp [hpc] at this
        · have := (hi.cdone (Or.inr hc)).1; rw [hi.rfree] at this; simp [hpc] at this
      refine ⟨hw, hi.wfB, hi.rtmp_len, ?_, ?_, ?_, ?_, hi.wfree, hi.wdone, ?_, ?_⟩
      · intro hfin
        by_cases h0 : s.rtmp.length ≠ 0
        · simp [h0] at hfin
        · have : s.rtmp = [] := List.length_eq_zero.1 (by omega)
          exact hi.eof_push hpc this
      · intro hfin
        by_cases h0 : s.rtmp.length ≠ 0 <;> simp [h0] at hfin
      · have := hi.rfree
        simp only [hpc] at this
        by_cases h0 : s.rtmp.length ≠ 0 <;> simp [h0] <;> simpa using this
      · intro hc
        rcases hc with hc | hc
        · exact absurd hc hcd.1
        · exact absurd hc hcd.2
      · intro _
        have hch : (s.A.unread ++ s.rtmp) ++
            ((if (if s.rtmp.length ≠ 0 then ReaderPc.fread else ReaderPc.finish) = ReaderPc.push
              then s.rtmp else []) ++ s.file) = s.A.unread ++ (s.rtmp ++ s.file) := by
          by_cases h0 : s.rtmp.length ≠ 0 <;> simp [h0]
        simp only [Pipeline.bytesBehind, Pipeline.future, Pipeline.charsAhead,
          Pipeline.readerPending, hpc, if_true] at hd ⊢
        rw [hu, hch]
        exact hd
      · intro e he; exact absurd he (by simp [ha])
  · -- finish
    rename_i hpc
    simp only [Option.some.injEq] at h
    subst h
    have hfile := hi.eof (Or.inl hpc)
    refine ⟨hi.wfA, hi.wfB, hi.rtmp_len, fun _ => hfile, by simp, by simp, ?_, hi.wfree,
      hi.wdone, ?_, ?_⟩
    · intro hc; exact ⟨rfl, (hi.cdone hc).2⟩
    · intro _
      simpa [Pipeline.bytesBehind, Pipeline.future, Pipeline.charsAhead,
        Pipeline.readerPending, hpc] using hd
    · intro e he; exact absurd he (by simp [ha])
  · exact absurd h (by simp)

theorem unread_nil_of_dist (r : Ring) (h : getDistanceInBuffer r.cons r.prod = 1) :
    r.unread = [] := by
  unfold Ring.unread Ring.unreadCount
  rw [h]
  rfl

theorem inv_convertFile_guarded (input : List Nat) (s s2 : Pipeline)
    (hi : Inv input s) (ha : s.aborted = none) (h : convertFile_guarded s = some s2) :
    Inv input s2 := by
  unfold convertFile_guarded at h
  have hd := hi.data ha
  split at h
  · -- check
    rename_i hpc
    have hwf : s.writing_buffer_free = false := by
      have := hi.wfree; simp [hpc] at this; exact this
    by_cases hcond : (!s.reading_buffer_free ||
        decide (getDistanceInBuffer s.A.cons s.A.prod ≠ 1)) = true
    · rw [if_pos hcond] at h
      simp only [Option.some.injEq] at h
      subst h
      refine ⟨hi.wfA, hi.wfB, hi.rtmp_len, hi.eof, hi.eof_push, hi.rfree, by simp,
        by simp [hwf], hi.wdone, ?_, ?_⟩
      · intro _
        simpa [Pipeline.bytesBehind, Pipeline.future, Pipeline.charsAhead,
          Pipeline.readerPending, hpc] using hd
      · intro e he; exact absurd he (by simp [ha])
    · rw [if_neg hcond] at h
      simp only [Option.some.injEq] at h
      subst h
      simp only [Bool.or_eq_true, Bool.not_eq_true', decide_eq_true_eq, not_or,
        Bool.not_eq_false, ne_eq, not_not] at hcond
      have hu := unread_nil_of_dist _ hcond.2
      have hfile : s.file = [] := hi.eof (Or.inr (hi.rfree.1 hcond.1))
      have hrpc : s.rpc = .done := hi.rfree.1 hcond.1
      refine ⟨hi.wfA, hi.wfB, hi.rtmp_len, hi.eof, hi.eof_push, hi.rfree,
        fun _ => ⟨hcond.1, hu⟩, by simp [hwf], hi.wdone, ?_, ?_⟩
      · intro _
        simpa [Pipeline.bytesBehind, Pipeline.future, Pipeline.charsAhead,
          Pipeline.readerPending, hpc, hu, hfile, hrpc, convertLoop] using hd
      · intro e he; exact absurd he (by simp [ha])
  · -- take
    rename_i hpc
    have hwf : s.writing_buffer_free = false := by
      have := hi.wfree; simp [hpc] at this; exact this
    by_cases hm : s.reading_mutex_held = true
    · rw [if_pos hm] at h; exact absurd h (by simp)
    rw [if_neg hm] at h
    split at h
    · exact absurd h (by simp)
    · -- the `continue` of line 217
      simp only [Option.some.injEq] at h
      subst h
      refine ⟨hi.wfA, hi.wfB, hi.rtmp_len, hi.eof, hi.eof_push, hi.rfree, by simp,
        by simp [hwf], hi.wdone, ?_, ?_⟩
      · intro _
        simpa [Pipeline.bytesBehind, Pipeline.future, Pipeline.charsAhead,
          Pipeline.readerPending, hpc] using hd
      · intro e he; exact absurd he (by simp [ha])
    · -- a character was taken
      rename_i c a htake
      obtain ⟨hw, hu, -, -, -, -⟩ := convertFile_take_spec _ _ _ _ hi.wfA htake
      simp only [Option.toList, List.singleton_append] at hu
      simp only [Pipeline.bytesBehind, Pipeline.future, Pipeline.charsAhead,
        Pipeline.readerPending, hpc, hu, List.cons_append, convertLoop] at hd
      by_cases hcount : (acceptChar s.acc c).count = 2
      · rw [if_pos hcount] at h
        rw [if_pos hcount] at hd
        cases hconv : convertCharsToU8 (acceptChar s.acc c).vals with
        | error e =>
          rw [hconv] at h hd
          simp only [Option.some.injEq] at h
          subst h
          refine ⟨hw, hi.wfB, hi.rtmp_len, hi.eof, hi.eof_push, hi.rfree, by simp [hpc],
            by simp [hwf, hpc], hi.wdone, ?_, ?_⟩
          · intro hab; exact absurd hab (by simp)
          · intro e2 he2
            simp only [Option.some.injEq] at he2
            subst he2
            refine ⟨hd.2.symm, ?_, hpc⟩
            simpa [Pipeline.bytesBehind] using hd.1
        | ok val =>
          rw [hconv] at h hd
          simp only [Option.some.injEq] at h
          subst h
          refine ⟨hw, hi.wfB, hi.rtmp_len, hi.eof, hi.eof_push, hi.rfree, by simp,
            by simp [hwf], hi.wdone, ?_, ?_⟩
          · intro _
            simpa [Pipeline.bytesBehind, Pipeline.future, Pipeline.charsAhead,
              Pipeline.readerPending] using hd
          · intro e he; exact absurd he (by simp [ha])
      · rw [if_neg hcount] at h
        rw [if_neg hcount] at hd
        simp only [Option.some.injEq] at h
        subst h
        refine ⟨hw, hi.wfB, hi.rtmp_len, hi.eof, hi.eof_push, hi.rfree, by simp,
          by simp [hwf], hi.wdone, ?_, ?_⟩
        · intro _
          simpa [Pipeline.bytesBehind, Pipeline.future, Pipeline.charsAhead,
            Pipeline.readerPending] using hd
        · intro e he; exact absurd he (by simp [ha])
  · -- put
    rename_i hpc
    have hwf : s.writing_buffer_free = false := by
      have := hi.wfree; simp [hpc] at this; exact this
    split at h
    · exact absurd h (by simp)
    · rename_i b hput
      simp only [Option.some.injEq] at h
      subst h
      obtain ⟨hw, hu, -, -, -⟩ := convertFile_put_spec _ _ _ hi.wfB hput
      have hwpc : s.wpc ≠ .done := fun hdone => by
        have := (hi.wdone hdone).1; simp [hwf] at this
      refine ⟨hi.wfA, hw, hi.rtmp_len, hi.eof, hi.eof_push, hi.rfree, by simp,
        by simp [hwf], fun hdone => absurd hdone hwpc, ?_, ?_⟩
      · intro _
        simpa [Pipeline.bytesBehind, Pipeline.future, Pipeline.charsAhead,
          Pipeline.readerPending, hpc, hu] using hd
      · intro e he; exact absurd he (by simp [ha])
  · -- finish
    rename_i hpc
    have hwf : s.writing_buffer_free = false := by
      have := hi.wfree; simp [hpc] at this; exact this
    simp only [Option.some.injEq] at h
    subst h
    have hwpc : s.wpc ≠ .done := fun hdone => by
      have := (hi.wdone hdone).1; simp [hwf] at this
    refine ⟨hi.wfA, hi.wfB, hi.rtmp_len, hi.eof, hi.eof_push, hi.rfree,
      fun _ => hi.cdone (Or.inl hpc), by simp, fun hdone => absurd hdone hwpc, ?_, ?_⟩
    · intro _
      simpa [Pipeline.bytesBehind, Pipeline.future, Pipeline.charsAhead,
        Pipeline.readerPending, hpc] using hd
    · intro e he; exact absurd he (by simp [ha])
  · exact absurd h (by simp)

theorem inv_writeFile_guarded (input : List Nat) (s s2 : Pipeline)
    (hi : Inv input s) (ha : s.aborted = none) (h : writeFile_guarded s = some s2) :
    Inv input s2 := by
  unfold writeFile_guarded at h
  have hd := hi.data ha
  split at h
  · -- check
    rename_i hpc
    by_cases hcond : (!s.writing_buffer_free ||
        decide (getDistanceInBuffer s.B.cons s.B.prod ≠ 1)) = true
    · rw [if_pos hcond] at h
      simp only [Option.some.injEq] at h
      subst h
      refine ⟨hi.wfA, hi.wfB, hi.rtmp_len, hi.eof, hi.eof_push, hi.rfree, hi.cdone,
        hi.wfree, by simp, ?_, ?_⟩
      · intro _
        simpa [Pipeline.bytesBehind, Pipeline.future, Pipeline.charsAhead,
          Pipeline.readerPending, hpc] using hd
      · intro e he; exact absurd he (by simp [ha])
    · rw [if_neg hcond] at h
      simp only [Option.some.injEq] at h
      subst h
      simp only [Bool.or_eq_true, Bool.not_eq_true', decide_eq_true_eq, not_or,
        Bool.not_eq_false, ne_eq, not_not] at hcond
      refine ⟨hi.wfA, hi.wfB, hi.rtmp_len, hi.eof, hi.eof_push, hi.rfree, hi.cdone,
        hi.wfree, fun _ => ⟨hcond.1, unread_nil_of_dist _ hcond.2⟩, ?_, ?_⟩
      · intro _
        simpa [Pipeline.bytesBehind, Pipeline.future, Pipeline.charsAhead,
          Pipeline.readerPending, hpc] using hd
      · intro e he; exact absurd he (by simp [ha])
  · -- drain
    rename_i hpc
    split at h
    · exact absurd h (by simp)
    · rename_i tmp b hdrain
      simp only [Option.some.injEq] at h
      subst h
      obtain ⟨hw, htmp, hu, -, -, -, -⟩ := writeFile_drain_spec _ _ _ _ hi.wfB hdrain
      refine ⟨hi.wfA, hw, hi.rtmp_len, hi.eof, hi.eof_push, hi.rfree, hi.cdone,
        hi.wfree, by simp, ?_, ?_⟩
      · intro _
        simpa [Pipeline.bytesBehind, Pipeline.future, Pipeline.charsAhead,
          Pipeline.readerPending, hpc, hu, htmp] using hd
      · intro e he; exact absurd he (by simp [ha])
  · -- fwrite
    rename_i hpc
    simp only [Option.some.injEq] at h
    subst h
    refine ⟨hi.wfA, hi.wfB, hi.rtmp_len, hi.eof, hi.eof_push, hi.rfree, hi.cdone,
      hi.wfree, by simp, ?_, ?_⟩
    · intro _
      simpa [Pipeline.bytesBehind, Pipeline.future, Pipeline.charsAhead,
        Pipeline.readerPending, hpc] using hd
    · intro e he; exact absurd he (by simp [ha])
  · exact absurd h (by simp)

theorem inv_step (input : List Nat) (t : Thread) (s s2 : Pipeline)
    (hi : Inv input s) (h : guardedStep s t = some s2) : Inv input s2 := by
  unfold guardedStep at h
  cases ha : s.aborted with
  | some e => simp [ha] at h
  | none =>
    simp only [ha, Option.isSome_none, Bool.false_eq_true, if_false] at h
    cases t with
    | reader short => exact inv_readFile_guarded input short s s2 hi ha h
    | converter => exact inv_convertFile_guarded input s s2 hi ha h
    | writer => exact inv_writeFile_guarded input s s2 hi ha h

theorem inv_run (input : List Nat) (sched : List Thread) :
    ∀ s s2, Inv input s → guardedRun sched s = some s2 → Inv input s2 := by
  induction sched with
  | nil =>
    intro s s2 hi h
    simp only [guardedRun, Option.some.injEq] at h
    exact h ▸ hi
  | cons t ts ih =>
    intro s s2 hi h
    rw [guardedRun] at h
    cases hs : guardedStep s t with
    | none => simp [hs] at h
    | some s1 =>
      rw [hs] at h
      exact ih s1 s2 (inv_step input t s s1 hi hs) h

theorem eq_some_getD {α : Type} (o : Option α) (d : α) (h : o.isSome = true) :
    o = some (o.getD d) := by
  cases o with
  | none => simp at h
  | some x => rfl

/-- In a state where all three threads have terminated, the output file holds exactly what
the sequential Converter produces, and no error occurred. -/
theorem terminated_output (input : List Nat) (s : Pipeline) (hi : Inv input s)
    (hterm : s.terminated) :
    s.aborted = none ∧ (convertFile input).2 = none ∧ s.output = (convertFile input).1 := by
  obtain ⟨hr, hc, hw⟩ := hterm
  cases ha : s.aborted with
  | some e =>
    have := (hi.abort e ha).2.2
    rw [hc] at this
    exact absurd this (by simp)
  | none =>
    have hd := hi.data ha
    have hB := (hi.wdone hw).2
    simp only [Pipeline.bytesBehind, Pipeline.future, hc, hw, hB] at hd
    refine ⟨rfl, hd.2.symm, ?_⟩
    simpa using hd.1

theorem ringStep_inv (t t2 : RingTrace) (op : RingOp) (hw : t.ring.wf)
    (hf : t.produced = t.consumed ++ t.ring.unread) (h : ringStep t op = some t2) :
    t2.ring.wf ∧ t2.produced = t2.consumed ++ t2.ring.unread := by
  cases op with
  | push tmp =>
    simp only [ringStep] at h
    split_ifs at h with hlen
    cases hp : readFile_push tmp t.ring with
    | none => simp [hp] at h
    | some r =>
      simp only [hp, Option.map_some', Option.some.injEq] at h
      subst h
      obtain ⟨hw2, hu, -⟩ := readFile_push_spec tmp _ _ hw
        (by simpa [DUMP_SIZE, BUFFER_SIZE] using hlen) hp
      exact ⟨hw2, by simp [hf, hu]⟩
  | put val =>
    simp only [ringStep] at h
    cases hp : convertFile_put val t.ring with
    | none => simp [hp] at h
    | some r =>
      simp only [hp, Option.map_some', Option.some.injEq] at h
      subst h
      obtain ⟨hw2, hu, -⟩ := convertFile_put_spec val _ _ hw hp
      exact ⟨hw2, by simp [hf, hu]⟩
  | take free =>
    simp only [ringStep] at h
    cases hp : convertFile_take free t.ring with
    | none => simp [hp] at h
    | some res =>
      obtain ⟨c, r⟩ := res
      simp only [hp, Option.map_some', Option.some.injEq] at h
      subst h
      obtain ⟨hw2, hu, -⟩ := convertFile_take_spec free _ _ _ hw hp
      exact ⟨hw2, by simp [hf, hu]⟩
  | drain free =>
    simp only [ringStep] at h
    cases hp : writeFile_drain free t.ring with
    | none => simp [hp] at h
    | some res =>
      obtain ⟨tmp, r⟩ := res
      simp only [hp, Option.map_some', Option.some.injEq] at h
      subst h
      obtain ⟨hw2, htmp, hu, -⟩ := writeFile_drain_spec free _ _ _ hw hp
      exact ⟨hw2, by simp [hf, hu, htmp]⟩

theorem ringRun_inv (ops : List RingOp) :
    ∀ t t2 : RingTrace, t.ring.wf → t.produced = t.consumed ++ t.ring.unread →
      ringRun ops t = some t2 →
      t2.ring.wf ∧ t2.produced = t2.consumed ++ t2.ring.unread := by
  induction ops with
  | nil =>
    intro t t2 hw hf h
    simp only [ringRun, Option.some.injEq] at h
    subst h
    exact ⟨hw, hf⟩
  | cons op ops ih =>
    intro t t2 hw hf h
    rw [ringRun] at h
    cases hs : ringStep t op with
    | none => simp [hs] at h
    | some t1 =>
      rw [hs] at h
      obtain ⟨hw1, hf1⟩ := ringStep_inv t t1 op hw hf hs
      exact ih t1 t2 hw1 hf1 h

theorem ringRun_init_inv (ops : List RingOp) (t : RingTrace)
    (h : ringRun ops RingTrace.init = some t) :
    t.ring.wf ∧ t.produced = t.consumed ++ t.ring.unread :=
  ringRun_inv ops RingTrace.init t init_wf (by simp [RingTrace.init, init_unread]) h

theorem unreadCount_le (r : Ring) (hw : r.wf) : r.unreadCount ≤ 510 := by
  obtain ⟨hp, hc, hne⟩ := hw
  unfold Ring.unreadCount
  rw [dist_of_lt _ _ hc hp]
  omega

/-- Claim C7 (FIFO): along every sequence of produce and consume steps on a buffer from the
initial state, what was consumed is a prefix of what was produced, and the unread elements
(slots `consumer + 1 .. producer - 1` mod 512) are exactly the remaining suffix, in order. -/
theorem ring_fifo (ops : List RingOp) (t : RingTrace)
    (h : ringRun ops RingTrace.init = some t) :
    t.consumed <+: t.produced ∧
    t.produced = t.consumed ++ t.ring.unread ∧
    t.ring.unread = slots t.ring.buf (t.ring.cons + 1) (getDistanceInBuffer t.ring.cons t.ring.prod - 1) := by
  obtain ⟨-, hf⟩ := ringRun_init_inv ops t h
  exact ⟨⟨t.ring.unread, hf.symm⟩, hf, rfl⟩

/-- Witness of C7: a run whose indices wrap around the end of the array. -/
theorem ring_fifo_witness :
    ringRun demoOps RingTrace.init = some demoTrace ∧
    demoTrace.ring.prod = 3 ∧ demoTrace.ring.cons = 0 ∧
    demoTrace.consumed = List.replicate 256 1 ++ List.replicate 256 2 ++ [7] ∧
    demoTrace.ring.unread = [8, 9] ∧
    demoTrace.produced = demoTrace.consumed ++ demoTrace.ring.unread :=
  ⟨eq_some_getD _ _ (by decide!), by decide!, by decide!, by decide!, by decide!,
   (ring_fifo demoOps demoTrace (eq_some_getD _ _ (by decide!))).2.1⟩

/-- Counterexample to claim C8 as stated: it is false that the number of unread elements
stays at most 511 and that 511 is reached; no reachable state holds 511 unread elements. -/
theorem usable_capacity_not_511 :
    ¬ ((∀ ops t, ringRun ops RingTrace.init = some t → t.ring.unreadCount ≤ 511) ∧
       (∃ ops t, ringRun ops RingTrace.init = some t ∧ t.ring.unreadCount = 511)) := by
  rintro ⟨-, ops, t, h, h511⟩
  have := unreadCount_le t.ring (ringRun_init_inv ops t h).1
  omega

/-- Claim C8, amended: the usable capacity is `C - 2 = 510`.  In every state reachable by
produce and consume steps the number of unread elements is at most 510, and a state with 510
unread elements, in which the buffer is full, is reached by `fillOps`. -/
theorem usable_capacity_510 :
    (∀ ops t, ringRun ops RingTrace.init = some t →
      t.ring.unreadCount ≤ 510 ∧ t.ring.unread.length = t.ring.unreadCount) ∧
    (ringRun fillOps RingTrace.init = some fillTrace ∧ fillTrace.ring.unreadCount = 510 ∧
      fillTrace.ring.isFull) := by
  refine ⟨fun ops t h => ⟨unreadCount_le t.ring (ringRun_init_inv ops t h).1, ?_⟩,
    eq_some_getD _ _ (by decide!), by decide!, by unfold Ring.isFull; decide!⟩
  unfold Ring.unread
  exact slots_length _ _ _

/-- Claim C9 (reserved slot): the initial state is empty (`distance(consumer, producer) = 1`,
no unread element); in every reachable state both indices are below 512, the producer index
equals the consumer index only if the buffer is empty (in fact the two indices never meet),
and no index pair is both full and empty. -/
theorem ring_reserved_slot (ops : List RingOp) (t : RingTrace)
    (h : ringRun ops RingTrace.init = some t) :
    (Ring.init.isEmpty ∧ Ring.init.unreadCount = 0) ∧
    t.ring.prod < BUFFER_SIZE ∧ t.ring.cons < BUFFER_SIZE ∧
    (t.ring.prod = t.ring.cons → t.ring.isEmpty) ∧
    t.ring.prod ≠ t.ring.cons ∧
    ¬ (t.ring.isFull ∧ t.ring.isEmpty) := by
  obtain ⟨⟨hp, hc, hne⟩, -⟩ := ringRun_init_inv ops t h
  refine ⟨⟨by unfold Ring.isEmpty; decide, by decide⟩, hp, hc, fun he => absurd he hne, hne, ?_⟩
  unfold Ring.isFull Ring.isEmpty
  rw [dist_of_lt _ _ hp hc, dist_of_lt _ _ hc hp]
  omega

/-- Witness of C9: the full buffer reached by `fillOps` is not empty. -/
theorem ring_reserved_slot_witness :
    ringRun fillOps RingTrace.init = some fillTrace ∧
    fillTrace.ring.prod = 0 ∧ fillTrace.ring.cons = 1 ∧ fillTrace.ring.isFull ∧
    ¬ fillTrace.ring.isEmpty :=
  ⟨eq_some_getD _ _ (by decide!), by decide!, by decide!, by unfold Ring.isFull; decide!,
   fun he => (ring_reserved_slot fillOps fillTrace (eq_some_getD _ _ (by decide!))).2.2.2.2.2
     ⟨by unfold Ring.isFull; decide!, he⟩⟩

/-! ## The pipeline: every run is finite and a terminating run exists -/

theorem unread_length (r : Ring) : r.unread.length = r.unreadCount := by
  unfold Ring.unread
  exact slots_length _ _ _

theorem unread_eq_nil_iff (r : Ring) (hw : r.wf) :
    r.unread = [] ↔ getDistanceInBuffer r.cons r.prod = 1 := by
  obtain ⟨hp, hc, hne⟩ := hw
  rw [← List.length_eq_zero, unread_length]
  unfold Ring.unreadCount
  rw [dist_of_lt _ _ hc hp]
  omega

theorem inv2_init (input : List Nat) : Inv2 (Pipeline.init input) where
  mutex := by simp [Pipeline.init]
  wtmp_nil := by simp [Pipeline.init]

theorem inv2_step (input : List Nat) (t : Thread) (s s2 : Pipeline)
    (hi : Inv input s) (hj : Inv2 s) (h : guardedStep s t = some s2) : Inv2 s2 := by
  unfold guardedStep at h
  cases ha : s.aborted with
  | some e => simp [ha] at h
  | none =>
    simp only [ha, Option.isSome_none, Bool.false_eq_true, if_false] at h
    cases t with
    | reader short =>
      replace h : readFile_guarded short s = some s2 := h
      unfold readFile_guarded at h
      split at h
      · simp only [Option.some.injEq] at h
        subst h
        exact ⟨hj.mutex, hj.wtmp_nil⟩
      · by_cases hm : s.reading_mutex_held = true
        · rw [if_pos hm] at h; exact absurd h (by simp)
        rw [if_neg hm] at h
        split at h
        · exact absurd h (by simp)
        · simp only [Option.some.injEq] at h
          subst h
          exact ⟨fun hm2 => absurd hm2 hm, hj.wtmp_nil⟩
      · simp only [Option.some.injEq] at h
        subst h
        exact ⟨fun hm => ⟨rfl, (hj.mutex hm).2⟩, hj.wtmp_nil⟩
      · exact absurd h (by simp)
    | converter =>
      replace h : convertFile_guarded s = some s2 := h
      unfold convertFile_guarded at h
      split at h
      · -- check
        rename_i hpc
        by_cases hcond : (!s.reading_buffer_free ||
            decide (getDistanceInBuffer s.A.cons s.A.prod ≠ 1)) = true
        · rw [if_pos hcond] at h
          simp only [Option.some.injEq] at h
          subst h
          refine ⟨fun hm => ?_, hj.wtmp_nil⟩
          have hmx := hj.mutex hm
          have hd1 := (unread_eq_nil_iff _ hi.wfA).1 hmx.2.1
          simp [hmx.1, hd1] at hcond
        · rw [if_neg hcond] at h
          simp only [Option.some.injEq] at h
          subst h
          exact ⟨fun hm => ⟨(hj.mutex hm).1, (hj.mutex hm).2.1, by simp, by simp⟩, hj.wtmp_nil⟩
      · -- take
        rename_i hpc
        by_cases hm : s.reading_mutex_held = true
        · rw [if_pos hm] at h; exact absurd h (by simp)
        rw [if_neg hm] at h
        split at h
        · exact absurd h (by simp)
        · rename_i r0 htake
          simp only [Option.some.injEq] at h
          subst h
          obtain ⟨-, -, -, -, hnone, -⟩ := convertFile_take_spec _ _ _ _ hi.wfA htake
          obtain ⟨-, hfree, hu⟩ := hnone rfl
          exact ⟨fun _ => ⟨hfree, hu, by simp, by simp⟩, hj.wtmp_nil⟩
        · rename_i c a htake
          by_cases hcount : (acceptChar s.acc c).count = 2
          · rw [if_pos hcount] at h
            cases hconv : convertCharsToU8 (acceptChar s.acc c).vals with
            | error e =>
              rw [hconv] at h
              simp only [Option.some.injEq] at h
              subst h
              exact ⟨fun hm2 => absurd hm2 hm, hj.wtmp_nil⟩
            | ok val =>
              rw [hconv] at h
              simp only [Option.some.injEq] at h
              subst h
              exact ⟨fun hm2 => absurd hm2 hm, hj.wtmp_nil⟩
          · rw [if_neg hcount] at h
            simp only [Option.some.injEq] at h
            subst h
            exact ⟨fun hm2 => absurd hm2 hm, hj.wtmp_nil⟩
      · -- put
        rename_i hpc
        have hwf : s.writing_buffer_free = false := by
          have := hi.wfree; simp [hpc] at this; exact this
        split at h
        · exact absurd h (by simp)
        · simp only [Option.some.injEq] at h
          subst h
          refine ⟨fun hm => absurd hpc (hj.mutex hm).2.2.2, fun hw ht => ?_⟩
          have := (hj.wtmp_nil hw ht).1
          simp [hwf] at this
      · -- finish
        rename_i hpc
        have hwf : s.writing_buffer_free = false := by
          have := hi.wfree; simp [hpc] at this; exact this
        simp only [Option.some.injEq] at h
        subst h
        refine ⟨fun hm => ⟨(hj.mutex hm).1, (hj.mutex hm).2.1, by simp, by simp⟩,
          fun hw ht => ?_⟩
        have := (hj.wtmp_nil hw ht).1
        simp [hwf] at this
      · exact absurd h (by simp)
    | writer =>
      replace h : writeFile_guarded s = some s2 := h
      unfold writeFile_guarded at h
      split at h
      · by_cases hcond : (!s.writing_buffer_free ||
            decide (getDistanceInBuffer s.B.cons s.B.prod ≠ 1)) = true
        · rw [if_pos hcond] at h
          simp only [Option.some.injEq] at h
          subst h
          exact ⟨hj.mutex, by simp⟩
        · rw [if_neg hcond] at h
          simp only [Option.some.injEq] at h
          subst h
          exact ⟨hj.mutex, by simp⟩
      · split at h
        · exact absurd h (by simp)
        · rename_i tmp b hdrain
          simp only [Option.some.injEq] at h
          subst h
          obtain ⟨-, htmp, hu, -, -, -, -⟩ := writeFile_drain_spec _ _ _ _ hi.wfB hdrain
          refine ⟨hj.mutex, fun _ ht => ⟨?_, hu⟩⟩
          simp only at ht
          rw [htmp] at ht
          have hd1 := (unread_eq_nil_iff _ hi.wfB).1 ht
          unfold writeFile_drain at hdrain
          simp only [hd1, DUMP_SIZE, BUFFER_SIZE] at hdrain
          cases hf : s.writing_buffer_free with
          | true => rfl
          | false => simp [hf] at hdrain
      · simp only [Option.some.injEq] at h
        subst h
        exact ⟨hj.mutex, by simp⟩
      · exact absurd h (by simp)

theorem measure_readFile_guarded (input : List Nat) (short : Nat) (s s2 : Pipeline)
    (hi : Inv input s) (h : readFile_guarded short s = some s2) :
    s2.measure < s.measure := by
  unfold readFile_guarded at h
  split at h
  · rename_i hpc
    simp only [Option.some.injEq] at h
    subst h
    have hlen : (List.take (min (min (short + 1) DUMP_SIZE) s.file.length) s.file).length +
        (List.drop (min (min (short + 1) DUMP_SIZE) s.file.length) s.file).length =
        s.file.length := by
      rw [← List.length_append, List.take_append_drop]
    simp only [Pipeline.measure, Pipeline.charsAhead, Pipeline.readerPending,
      Pipeline.writerRank, ReaderPc.rank, hpc, List.length_append, if_true, List.length_nil]
    simp only [reduceCtorEq, if_false, List.length_nil]
    omega
  · rename_i hpc
    by_cases hm : s.reading_mutex_held = true
    · rw [if_pos hm] at h; exact absurd h (by simp)
    rw [if_neg hm] at h
    split at h
    · exact absurd h (by simp)
    · rename_i a hpush
      simp only [Option.some.injEq] at h
      subst h
      obtain ⟨-, hu, -, -, -⟩ := readFile_push_spec _ _ _ hi.wfA hi.rtmp_len hpush
      have hul : a.unread.length = s.A.unread.length + s.rtmp.length := by
        rw [hu, List.length_append]
      by_cases h0 : s.rtmp.length ≠ 0
      · simp only [Pipeline.measure, Pipeline.charsAhead, Pipeline.readerPending,
          Pipeline.writerRank, ReaderPc.rank, hpc, List.length_append, if_true, h0, hul,
          reduceCtorEq, if_false, List.length_nil, ne_eq, not_false_eq_true]
        omega
      · simp only [Pipeline.measure, Pipeline.charsAhead, Pipeline.readerPending,
          Pipeline.writerRank, ReaderPc.rank, hpc, List.length_append, if_true, h0, hul,
          reduceCtorEq, if_false, List.length_nil]
        omega
  · rename_i hpc
    simp only [Option.some.injEq] at h
    subst h
    simp only [Pipeline.measure, Pipeline.charsAhead, Pipeline.readerPending,
      Pipeline.writerRank, ReaderPc.rank, hpc, List.length_append,
      reduceCtorEq, if_false, List.length_nil]
    omega
  · exact absurd h (by simp)

theorem measure_writeFile_guarded (input : List Nat) (s s2 : Pipeline)
    (hi : Inv input s) (hj : Inv2 s) (h : writeFile_guarded s = some s2) :
    s2.measure < s.measure := by
  unfold writeFile_guarded at h
  split at h
  · rename_i hpc
    by_cases hcond : (!s.writing_buffer_free ||
        decide (getDistanceInBuffer s.B.cons s.B.prod ≠ 1)) = true
    · rw [if_pos hcond] at h
      simp only [Option.some.injEq] at h
      subst h
      have hnf : ¬ (s.writing_buffer_free = true ∧ s.B.unread = []) := by
        rintro ⟨hf, hu⟩
        have := (unread_eq_nil_iff _ hi.wfB).1 hu
        simp [hf, this] at hcond
      simp only [Pipeline.measure, Pipeline.charsAhead, Pipeline.readerPending,
        Pipeline.writerRank, hpc, hnf, reduceCtorEq, if_false, List.length_nil]
      omega
    · rw [if_neg hcond] at h
      simp only [Option.some.injEq] at h
      subst h
      simp only [Bool.or_eq_true, Bool.not_eq_true', decide_eq_true_eq, not_or,
        Bool.not_eq_false, ne_eq, not_not] at hcond
      have hfin : s.writing_buffer_free = true ∧ s.B.unread = [] :=
        ⟨hcond.1, (unread_eq_nil_iff _ hi.wfB).2 hcond.2⟩
      simp only [Pipeline.measure, Pipeline.charsAhead, Pipeline.readerPending,
        Pipeline.writerRank, hpc, hfin, and_self, if_true, reduceCtorEq, if_false,
        List.length_nil]
      omega
  · rename_i hpc
    split at h
    · exact absurd h (by simp)
    · rename_i tmp b hdrain
      simp only [Option.some.injEq] at h
      subst h
      obtain ⟨-, htmp, hu, -, -, -, -⟩ := writeFile_drain_spec _ _ _ _ hi.wfB hdrain
      simp only [Pipeline.measure, Pipeline.charsAhead, Pipeline.readerPending,
        Pipeline.writerRank, hpc, hu, htmp, if_true, reduceCtorEq, if_false, List.length_nil]
      omega
  · rename_i hpc
    simp only [Option.some.injEq] at h
    subst h
    by_cases ht : s.wtmp = []
    · have hfin := hj.wtmp_nil hpc ht
      simp only [Pipeline.measure, Pipeline.charsAhead, Pipeline.readerPending,
        Pipeline.writerRank, hpc, hfin, ht, and_self, if_true, reduceCtorEq, if_false,
        List.length_nil]
      omega
    · have hl : 1 ≤ s.wtmp.length := by
        cases hw : s.wtmp with
        | nil => exact absurd hw ht
        | cons x xs => simp
      simp only [Pipeline.measure, Pipeline.charsAhead, Pipeline.readerPending,
        Pipeline.writerRank, hpc, if_true, reduceCtorEq, if_false, List.length_nil]
      split_ifs <;> omega
  · exact absurd h (by simp)

theorem measure_convertFile_guarded (input : List Nat) (s s2 : Pipeline)
    (hi : Inv input s) (h : convertFile_guarded s = some s2) :
    s2.measure < s.measure := by
  unfold convertFile_guarded at h
  split at h
  · -- check
    rename_i hpc
    by_cases hcond : (!s.reading_buffer_free ||
        decide (getDistanceInBuffer s.A.cons s.A.prod ≠ 1)) = true
    · rw [if_pos hcond] at h
      simp only [Option.some.injEq] at h
      subst h
      simp only [Pipeline.measure, Pipeline.charsAhead, Pipeline.readerPending,
        Pipeline.writerRank, ConverterPc.rank, hpc]
      omega
    · rw [if_neg hcond] at h
      simp only [Option.some.injEq] at h
      subst h
      simp only [Pipeline.measure, Pipeline.charsAhead, Pipeline.readerPending,
        Pipeline.writerRank, ConverterPc.rank, hpc]
      omega
  · -- take
    rename_i hpc
    by_cases hm : s.reading_mutex_held = true
    · rw [if_pos hm] at h; exact absurd h (by simp)
    rw [if_neg hm] at h
    have hm2 : s.reading_mutex_held = false := by simpa using hm
    split at h
    · exact absurd h (by simp)
    · simp only [Option.some.injEq] at h
      subst h
      simp only [Pipeline.measure, Pipeline.charsAhead, Pipeline.readerPending,
        Pipeline.writerRank, ConverterPc.rank, hpc, hm2, if_true, Bool.false_eq_true, if_false]
      omega
    · rename_i c a htake
      obtain ⟨-, hu, -, -, -, -⟩ := convertFile_take_spec _ _ _ _ hi.wfA htake
      have hul : s.A.unread.length = a.unread.length + 1 := by
        rw [hu]; simp [Option.toList]
      by_cases hcount : (acceptChar s.acc c).count = 2
      · rw [if_pos hcount] at h
        cases hconv : convertCharsToU8 (acceptChar s.acc c).vals with
        | error e =>
          rw [hconv] at h
          simp only [Option.some.injEq] at h
          subst h
          simp only [Pipeline.measure, Pipeline.charsAhead, Pipeline.readerPending,
            Pipeline.writerRank, ConverterPc.rank, hpc, hul, List.length_append]
          omega
        | ok val =>
          rw [hconv] at h
          simp only [Option.some.injEq] at h
          subst h
          simp only [Pipeline.measure, Pipeline.charsAhead, Pipeline.readerPending,
            Pipeline.writerRank, ConverterPc.rank, hpc, hul, List.length_append]
          omega
      · rw [if_neg hcount] at h
        simp only [Option.some.injEq] at h
        subst h
        simp only [Pipeline.measure, Pipeline.charsAhead, Pipeline.readerPending,
          Pipeline.writerRank, ConverterPc.rank, hpc, hul, List.length_append]
        omega
  · -- put
    rename_i hpc
    have hwf : s.writing_buffer_free = false := by
      have := hi.wfree; simp [hpc] at this; exact this
    split at h
    · exact absurd h (by simp)
    · rename_i b hput
      simp only [Option.some.injEq] at h
      subst h
      obtain ⟨-, hu, -, -, -⟩ := convertFile_put_spec _ _ _ hi.wfB hput
      have hul : b.unread.length = s.B.unread.length + 1 := by
        rw [hu]; simp
      simp only [Pipeline.measure, Pipeline.charsAhead, Pipeline.readerPending,
        Pipeline.writerRank, ConverterPc.rank, hpc, hul, hwf, Bool.false_eq_true, false_and,
        if_false]
      split <;> omega
  · -- finish
    rename_i hpc
    simp only [Option.some.injEq] at h
    subst h
    simp only [Pipeline.measure, Pipeline.charsAhead, Pipeline.readerPending,
      Pipeline.writerRank, ConverterPc.rank, hpc]
    cases hwpc : s.wpc <;> simp only [reduceCtorEq, if_false, if_true] <;> split_ifs <;> omega
  · exact absurd h (by simp)

/-- Every step of every thread lowers the termination measure. -/
theorem measure_step (input : List Nat) (t : Thread) (s s2 : Pipeline)
    (hi : Inv input s) (hj : Inv2 s) (h : guardedStep s t = some s2) :
    s2.measure < s.measure := by
  unfold guardedStep at h
  cases ha : s.aborted with
  | some e => simp [ha] at h
  | none =>
    simp only [ha, Option.isSome_none, Bool.false_eq_true, if_false] at h
    cases t with
    | reader short => exact measure_readFile_guarded input short s s2 hi h
    | converter => exact measure_convertFile_guarded input s s2 hi h
    | writer => exact measure_writeFile_guarded input s s2 hi hj h

/-- Both invariants hold along every run. -/
theorem inv_inv2_run (input : List Nat) (sched : List Thread) :
    ∀ s s2, Inv input s → Inv2 s → guardedRun sched s = some s2 → Inv input s2 ∧ Inv2 s2 := by
  induction sched with
  | nil =>
    intro s s2 hi hj h
    simp only [guardedRun, Option.some.injEq] at h
    exact h ▸ ⟨hi, hj⟩
  | cons t ts ih =>
    intro s s2 hi hj h
    rw [guardedRun] at h
    cases hs : guardedStep s t with
    | none => simp [hs] at h
    | some s1 =>
      rw [hs] at h
      exact ih s1 s2 (inv_step input t s s1 hi hs) (inv2_step input t s s1 hi hj hs) h

/-- A run is no longer than the measure of the state it starts in. -/
theorem run_length_le (input : List Nat) (sched : List Thread) :
    ∀ s s2, Inv input s → Inv2 s → guardedRun sched s = some s2 →
      sched.length + s2.measure ≤ s.measure := by
  induction sched with
  | nil =>
    intro s s2 _ _ h
    simp only [guardedRun, Option.some.injEq] at h
    subst h
    simp
  | cons t ts ih =>
    intro s s2 hi hj h
    rw [guardedRun] at h
    cases hs : guardedStep s t with
    | none => simp [hs] at h
    | some s1 =>
      rw [hs] at h
      have h1 := ih s1 s2 (inv_step input t s s1 hi hs) (inv2_step input t s s1 hi hj hs) h
      have h2 := measure_step input t s s1 hi hj hs
      simp only [List.length_cons]
      omega

theorem step_reader (s : Pipeline) (short : Nat) (ha : s.aborted = none) :
    guardedStep s (.reader short) = readFile_guarded short s := by
  simp [guardedStep, ha]

theorem step_converter (s : Pipeline) (ha : s.aborted = none) :
    guardedStep s .converter = convertFile_guarded s := by
  simp [guardedStep, ha]

theorem step_writer (s : Pipeline) (ha : s.aborted = none) :
    guardedStep s .writer = writeFile_guarded s := by
  simp [guardedStep, ha]

/-- The Converter can move at `take` as soon as its critical section on A is open. -/
theorem convertFile_guarded_take (s : Pipeline) (hpc : s.cpc = .take)
    (hm : s.reading_mutex_held = false)
    (ht : (convertFile_take s.reading_buffer_free s.A).isSome = true) :
    (convertFile_guarded s).isSome = true := by
  unfold convertFile_guarded
  rw [hpc]
  simp only [hm, Bool.false_eq_true, if_false]
  cases hres : convertFile_take s.reading_buffer_free s.A with
  | none => simp [hres] at ht
  | some res =>
    obtain ⟨c, a⟩ := res
    cases c with
    | none => rfl
    | some c =>
      simp only []
      split_ifs
      · cases convertCharsToU8 (acceptChar s.acc c).vals <;> rfl
      · rfl

/-- No stuck state: while the process has not been aborted and not all three threads have
terminated, some thread has an enabled step. -/
theorem progress (input : List Nat) (s : Pipeline) (hi : Inv input s) (hj : Inv2 s)
    (ha : s.aborted = none) (hnt : ¬ s.terminated) :
    ∃ t, (guardedStep s t).isSome = true := by
  obtain ⟨hpA, hcA, hneA⟩ := hi.wfA
  obtain ⟨hpB, hcB, hneB⟩ := hi.wfB
  -- the Writer can always move unless it waits on a short, unfinished buffer B
  have writer_moves : s.wpc ≠ .done →
      (s.writing_buffer_free = true ∨ 256 ≤ getDistanceInBuffer s.B.cons s.B.prod) →
      ∃ t, (guardedStep s t).isSome = true := by
    intro hwd hg
    refine ⟨.writer, ?_⟩
    rw [step_writer s ha]
    unfold writeFile_guarded
    cases hw : s.wpc with
    | check => simp only []; split_ifs <;> rfl
    | drain =>
      have : (!s.writing_buffer_free &&
          decide (getDistanceInBuffer s.B.cons s.B.prod < DUMP_SIZE)) = false := by
        rcases hg with hg | hg
        · simp [hg]
        · simp [DUMP_SIZE, BUFFER_SIZE]; intro _; omega
      simp [writeFile_drain, this]
    | fwrite => rfl
    | done => exact absurd hw hwd
  cases hc : s.cpc with
  | check =>
    refine ⟨.converter, ?_⟩
    rw [step_converter s ha]
    unfold convertFile_guarded
    rw [hc]
    simp only []
    split_ifs <;> rfl
  | finish =>
    refine ⟨.converter, ?_⟩
    rw [step_converter s ha]
    unfold convertFile_guarded
    rw [hc]
    rfl
  | take =>
    have hm : s.reading_mutex_held = false := by
      cases hmm : s.reading_mutex_held with
      | false => rfl
      | true => exact absurd hc (hj.mutex hmm).2.2.1
    by_cases ht : (convertFile_take s.reading_buffer_free s.A).isSome = true
    · exact ⟨.converter, by rw [step_converter s ha]; exact convertFile_guarded_take s hc hm ht⟩
    · -- buffer A is empty and the Reader has not finished: the Reader can move
      have hblocked : s.reading_buffer_free = false ∧
          getDistanceInBuffer s.A.cons s.A.prod ≤ 1 := by
        unfold convertFile_take at ht
        simp only [] at ht
        split_ifs at ht with h1 h2
        · simpa using h1
        · simp at ht
        · simp at ht
      refine ⟨.reader 255, ?_⟩
      rw [step_reader s 255 ha]
      unfold readFile_guarded
      cases hr : s.rpc with
      | fread => rfl
      | finish => rfl
      | done =>
        have := hi.rfree.2 hr
        simp [hblocked.1] at this
      | push =>
        simp only [hm, Bool.false_eq_true, if_false]
        have hlen := hi.rtmp_len
        have hd := hblocked.2
        rw [dist_of_lt _ _ hcA hpA] at hd
        have : ¬ (getDistanceInBuffer s.A.prod s.A.cons < (s.rtmp.length + 1) % U32) := by
          rw [dist_of_lt _ _ hpA hcA]
          unfold U32
          omega
        simp [readFile_push, this]
  | put =>
    by_cases hp : getDistanceInBuffer s.B.prod s.B.cons = 1
    · -- buffer B is full: the Writer can move
      apply writer_moves
      · intro hwd
        have := hi.wfree.1 (hi.wdone hwd).1
        rw [hc] at this
        exact absurd this (by simp)
      · right
        rw [dist_of_lt _ _ hpB hcB] at hp
        rw [dist_of_lt _ _ hcB hpB]
        omega
    · refine ⟨.converter, ?_⟩
      rw [step_converter s ha]
      unfold convertFile_guarded
      rw [hc]
      simp [convertFile_put, hp]
  | done =>
    have hwf : s.writing_buffer_free = true := hi.wfree.2 hc
    apply writer_moves
    · intro hwd
      have hrd : s.rpc = .done := hi.rfree.1 (hi.cdone (Or.inr hc)).1
      exact hnt ⟨hrd, hc, hwd⟩
    · exact Or.inl hwf

/-- From every state of a run on an input that decodes without error, the three threads can
reach termination. -/
theorem exists_terminating_run (input : List Nat) (hok : (convertFile input).2 = none) :
    ∀ n (s : Pipeline), s.measure ≤ n → Inv input s → Inv2 s → s.aborted = none →
      ∃ sched s2, guardedRun sched s = some s2 ∧ s2.terminated := by
  intro n
  induction n with
  | zero =>
    intro s hn hi hj ha
    by_cases hterm : s.terminated
    · exact ⟨[], s, rfl, hterm⟩
    · obtain ⟨t, ht⟩ := progress input s hi hj ha hterm
      obtain ⟨s1, hs1⟩ := Option.isSome_iff_exists.1 ht
      have := measure_step input t s s1 hi hj hs1
      omega
  | succ n ih =>
    intro s hn hi hj ha
    by_cases hterm : s.terminated
    · exact ⟨[], s, rfl, hterm⟩
    · obtain ⟨t, ht⟩ := progress input s hi hj ha hterm
      obtain ⟨s1, hs1⟩ := Option.isSome_iff_exists.1 ht
      have hlt := measure_step input t s s1 hi hj hs1
      have hi1 := inv_step input t s s1 hi hs1
      have hj1 := inv2_step input t s s1 hi hj hs1
      have ha1 : s1.aborted = none := by
        cases hab : s1.aborted with
        | none => rfl
        | some e =>
          have := (hi1.abort e hab).1
          rw [hok] at this
          exact absurd this (by simp)
      obtain ⟨sched, s2, hrun, hterm2⟩ := ih s1 (by omega) hi1 hj1 ha1
      exact ⟨t :: sched, s2, by simp [guardedRun, hs1, hrun], hterm2⟩

theorem measure_init (input : List Nat) :
    (Pipeline.init input).measure = 15 * input.length + 27 := by
  simp [Pipeline.measure, Pipeline.init, Pipeline.charsAhead, Pipeline.readerPending,
    Pipeline.writerRank, init_unread, ReaderPc.rank, ConverterPc.rank]
  omega

/-! ## Output length and the exact condition of a decoding error -/

theorem hex_not_separator (c : Nat) (h : isHexDigit c) : ¬ isSeparator c := by
  unfold isHexDigit at h
  unfold isSeparator
  omega

theorem filter_hex_eq_strip (input : List Nat)
    (h : ∀ c ∈ input, isHexDigit c ∨ isSeparator c) :
    input.filter (fun c => decide (isHexDigit c)) = stripSeparators input := by
  unfold stripSeparators
  apply List.filter_congr
  intro c hc
  rcases h c hc with h1 | h1
  · simp [h1, hex_not_separator c h1]
  · have : ¬ isHexDigit c := fun hh => hex_not_separator c hh h1
    simp [h1, this]

/-- Claim C13: for every input made only of hexadecimal digits and filtered separators, the
number of bytes the Converter emits is `floor(n / 2)`, `n` being the number of hexadecimal
digits (the significant characters) of the input; no error occurs. -/
theorem convertFile_output_length (input : List Nat)
    (h : ∀ c ∈ input, isHexDigit c ∨ isSeparator c) :
    (convertFile input).1.length = (input.filter (fun c => decide (isHexDigit c))).length / 2 ∧
    (convertFile input).2 = none := by
  rw [filter_hex_eq_strip input h, convertFile_of_valid input h]
  exact ⟨specDecode_length _, rfl⟩

/-- Witness of C13: the five digits of `41 42 4` give two bytes. -/
theorem convertFile_output_length_witness :
    (convertFile (bytesOf "41 42 4")).1.length = 5 / 2 ∧
    (convertFile (bytesOf "41 42 4")).2 = none :=
  convertFile_output_length (bytesOf "41 42 4") (by decide)

/-- The decoder fails exactly when some complete pair holds a character that is not a
digit. -/
theorem decodePairs_error_iff_pair (l : List Nat) :
    (decodePairs l).2 ≠ none ↔
      ∃ k a b, l[2 * k]? = some a ∧ l[2 * k + 1]? = some b ∧
        ¬ (isHexDigit a ∧ isHexDigit b) := by
  induction l using specDecode.induct with
  | case1 a b rest ih =>
    by_cases hab : isHexDigit a ∧ isHexDigit b
    · have hv := convertCharsToU8_of_hex (store (store (fun _ => 0) 0 a) 1 b)
        (by simpa [store] using hab.1) (by simpa [store] using hab.2)
      simp only [decodePairs]
      rw [hv]
      simp only []
      rw [ih]
      constructor
      · rintro ⟨k, x, y, hx, hy, hn⟩
        refine ⟨k + 1, x, y, ?_, ?_, hn⟩
        · have : 2 * (k + 1) = 2 * k + 1 + 1 := by omega
          rw [this]; simpa using hx
        · have : 2 * (k + 1) + 1 = 2 * k + 1 + 1 + 1 := by omega
          rw [this]; simpa using hy
      · rintro ⟨k, x, y, hx, hy, hn⟩
        cases k with
        | zero =>
          simp at hx hy
          subst hx; subst hy
          exact absurd hab hn
        | succ k =>
          refine ⟨k, x, y, ?_, ?_, hn⟩
          · have : 2 * (k + 1) = 2 * k + 1 + 1 := by omega
            rw [this] at hx; simpa using hx
          · have : 2 * (k + 1) + 1 = 2 * k + 1 + 1 + 1 := by omega
            rw [this] at hy; simpa using hy
    · obtain ⟨e, he, -, -⟩ := convertCharsToU8_of_not_hex (store (store (fun _ => 0) 0 a) 1 b)
        (by simpa [store] using hab)
      simp only [decodePairs]
      rw [he]
      simp only [ne_eq, reduceCtorEq, not_false_eq_true, true_iff]
      exact ⟨0, a, b, by simp, by simp, hab⟩
  | case2 l hl =>
    match l, hl with
    | [], _ => simp [decodePairs]
    | [a], _ => simp [decodePairs]
    | a :: b :: rest, hl => exact absurd rfl (hl a b rest)

/-- A character appended after complete pairs is never decoded. -/
theorem decodePairs_append_lone (l : List Nat) (c : Nat) (h : l.length % 2 = 0) :
    decodePairs (l ++ [c]) = decodePairs l := by
  induction l using specDecode.induct with
  | case1 a b rest ih =>
    have hr : rest.length % 2 = 0 := by simp only [List.length_cons] at h; omega
    have hi := ih hr
    show decodePairs (a :: b :: (rest ++ [c])) = decodePairs (a :: b :: rest)
    rw [decodePairs, decodePairs, hi]
  | case2 l hl =>
    match l, hl with
    | [], _ => simp [decodePairs]
    | [a], _ => simp at h
    | a :: b :: rest, hl => exact absurd rfl (hl a b rest)

theorem stripSeparators_append (xs ys : List Nat) :
    stripSeparators (xs ++ ys) = stripSeparators xs ++ stripSeparators ys := by
  unfold stripSeparators
  exact List.filter_append _ _

/-- Claim C16: the Converter ends in a fatal decoding error if and only if, once the
separators are deleted, some complete pair (the characters number `2k` and `2k + 1`) holds a
character that is not a hexadecimal digit.  A character of any kind appended as the lone,
unpaired last one changes neither the bytes nor the error: it is accepted without any check
and dropped, validity being tested only when a pair is decoded. -/
theorem convertFile_error_iff (input : List Nat) :
    ((convertFile input).2 ≠ none ↔
      ∃ k a b, (stripSeparators input)[2 * k]? = some a ∧
        (stripSeparators input)[2 * k + 1]? = some b ∧ ¬ (isHexDigit a ∧ isHexDigit b)) ∧
    (∀ c, (stripSeparators input).length % 2 = 0 →
      convertFile (input ++ [c]) = convertFile input) ∧
    (∀ c, acceptChar Accumulator.init c =
      if significant c then ⟨1, store (fun _ => 0) 0 c⟩ else Accumulator.init) := by
  refine ⟨?_, ?_, ?_⟩
  · rw [convertFile_eq_decodePairs]
    exact decodePairs_error_iff_pair _
  · intro c heven
    rw [convertFile_eq_decodePairs, convertFile_eq_decodePairs, stripSeparators_append]
    by_cases hs : isSeparator c
    · simp [stripSeparators, hs]
    · have : stripSeparators [c] = [c] := by simp [stripSeparators, hs]
      rw [this]
      exact decodePairs_append_lone _ c heven
  · intro c
    simp [acceptChar, Accumulator.init]

/-! ## Contracts of the produce and consume steps -/

theorem slots_getElem? (buf : Nat → Nat) (n : Nat) :
    ∀ s k, k < n → (slots buf s n)[k]? = some (buf ((s + k) % 512)) := by
  induction n with
  | zero => intro s k hk; omega
  | succ n ih =>
    intro s k hk
    cases k with
    | zero => simp [slots, BUFFER_SIZE]
    | succ k =>
      have := ih (s + 1) k (by omega)
      have e : s + 1 + k = s + (k + 1) := by omega
      rw [e] at this
      simpa [slots] using this

/-- The copy loop puts `tmp[k]` in slot `(prod + k) mod 512`. -/
theorem copyIn_at (tmp : List Nat) (buf : Nat → Nat) (p k : Nat) (hp : p < 512)
    (hlen : tmp.length ≤ 512) (hk : k < tmp.length) :
    tmp[k]? = some (copyIn buf p 0 tmp ((p + k) % 512)) := by
  have h := slots_copyIn tmp buf p 0 hp (by omega)
  have h2 := slots_getElem? (copyIn buf p 0 tmp) tmp.length (p + 0) k hk
  rw [h] at h2
  simpa using h2

/-- Claim C11, amended: a drain step of the Writer removes all the unread elements of
buffer B at once; the chunk has at most 510 bytes (the usable capacity), and at least
`DUMP_SIZE - 1 = 255` bytes while the Converter has not finished. -/
theorem drain_chunk_bound (ops : List RingOp) (t : RingTrace)
    (h : ringRun ops RingTrace.init = some t)
    (free : Bool) (tmp : List Nat) (r2 : Ring)
    (hd : writeFile_drain free t.ring = some (tmp, r2)) :
    tmp = t.ring.unread ∧ r2.unread = [] ∧ tmp.length ≤ 510 ∧
    (free = false → DUMP_SIZE - 1 ≤ tmp.length) := by
  obtain ⟨hw, -⟩ := ringRun_init_inv ops t h
  obtain ⟨-, htmp, hu, -, -, -, hlen⟩ := writeFile_drain_spec free _ _ _ hw hd
  refine ⟨htmp, hu, ?_, ?_⟩
  · rw [htmp, unread_length]
    exact unreadCount_le _ hw
  · intro hf
    subst hf
    unfold writeFile_drain at hd
    simp only [Bool.not_false, Bool.true_and] at hd
    split_ifs at hd with hg
    simp only [decide_eq_true_eq, not_lt] at hg
    rw [hlen]
    omega

set_option maxRecDepth 1000000 in
/-- Witness of the amended C11: the drain of a full buffer takes its 510 bytes. -/
theorem drain_chunk_bound_witness :
    fillDrain.1 = fillTrace.ring.unread ∧ fillDrain.2.unread = [] ∧
    fillDrain.1.length ≤ 510 ∧ (false = false → DUMP_SIZE - 1 ≤ fillDrain.1.length) :=
  drain_chunk_bound fillOps fillTrace (eq_some_getD _ _ (by decide!)) false
    fillDrain.1 fillDrain.2
    (eq_some_getD (writeFile_drain false fillTrace.ring) ([], Ring.init) (by decide!))

/-- Claim C12 (produce step contract): in every reachable state of a buffer, a push of the
Reader (`n <= 256` characters) is taken only when `distance(producer, consumer) >= n + 1`,
a push of the Converter (one byte) only when that distance is at least 2; the step stores
the chunk in slots `producer .. producer + n - 1` (mod 512), sets the producer index to
`(producer + n) mod 512`, and changes neither the consumer index nor any other slot, so that
every slot holding an unread element keeps its content. -/
theorem produce_contract (ops : List RingOp) (t : RingTrace)
    (h : ringRun ops RingTrace.init = some t) :
    (∀ tmp r2, tmp.length ≤ DUMP_SIZE → readFile_push tmp t.ring = some r2 →
      tmp.length + 1 ≤ getDistanceInBuffer t.ring.prod t.ring.cons ∧
      r2.prod = (t.ring.prod + tmp.length) % 512 ∧
      r2.cons = t.ring.cons ∧
      (∀ i, i < tmp.length → tmp[i]? = some (r2.buf ((t.ring.prod + i) % 512))) ∧
      (∀ j, (∀ i, i < tmp.length → j ≠ (t.ring.prod + i) % 512) → r2.buf j = t.ring.buf j) ∧
      (∀ k, k < t.ring.unreadCount →
        r2.buf ((t.ring.cons + 1 + k) % 512) = t.ring.buf ((t.ring.cons + 1 + k) % 512))) ∧
    (∀ val r2, convertFile_put val t.ring = some r2 →
      1 + 1 ≤ getDistanceInBuffer t.ring.prod t.ring.cons ∧
      r2.prod = (t.ring.prod + 1) % 512 ∧
      r2.cons = t.ring.cons ∧
      r2.buf t.ring.prod = val ∧
      (∀ j, j ≠ t.ring.prod → r2.buf j = t.ring.buf j) ∧
      (∀ k, k < t.ring.unreadCount →
        r2.buf ((t.ring.cons + 1 + k) % 512) = t.ring.buf ((t.ring.cons + 1 + k) % 512))) := by
  obtain ⟨hw, -⟩ := ringRun_init_inv ops t h
  obtain ⟨hp, hc, hne⟩ := hw
  constructor
  · intro tmp r2 hlen hpush
    have hlen2 : tmp.length ≤ 256 := by simpa [DUMP_SIZE, BUFFER_SIZE] using hlen
    obtain ⟨-, -, hcons, hguard, hprod⟩ := readFile_push_spec tmp _ _ ⟨hp, hc, hne⟩ hlen2 hpush
    have hbuf : r2.buf = copyIn t.ring.buf t.ring.prod 0 tmp := by
      unfold readFile_push at hpush
      split_ifs at hpush
      simp only [Option.some.injEq] at hpush
      rw [← hpush]
    have hother : ∀ j, (∀ i, i < tmp.length → j ≠ (t.ring.prod + i) % 512) →
        r2.buf j = t.ring.buf j := by
      intro j hj
      rw [hbuf]
      apply copyIn_other
      intro k hk
      have := hj k hk
      unfold U32 BUFFER_SIZE
      omega
    refine ⟨hguard, hprod, hcons, ?_, hother, ?_⟩
    · intro i hi
      rw [hbuf]
      exact copyIn_at tmp _ _ i hp (by omega) hi
    · intro k hk
      apply hother
      intro i hi
      unfold Ring.unreadCount at hk
      rw [dist_of_lt _ _ hc hp] at hk
      rw [dist_of_lt _ _ hp hc] at hguard
      omega
  · intro val r2 hput
    obtain ⟨-, -, hcons, hguard, hprod⟩ := convertFile_put_spec val _ _ ⟨hp, hc, hne⟩ hput
    have hbuf : r2.buf = store t.ring.buf t.ring.prod val := by
      unfold convertFile_put at hput
      split_ifs at hput
      simp only [Option.some.injEq] at hput
      rw [← hput]
    refine ⟨hguard, hprod, hcons, by simp [hbuf, store], ?_, ?_⟩
    · intro j hj
      simp [hbuf, store, hj]
    · intro k hk
      unfold Ring.unreadCount at hk
      rw [dist_of_lt _ _ hc hp] at hk
      have : (t.ring.cons + 1 + k) % 512 ≠ t.ring.prod := by omega
      simp [hbuf, store, this]

set_option maxRecDepth 1000000 in
/-- Witness of C12: two characters pushed on a buffer holding two unread elements. -/
theorem produce_contract_witness :
    2 + 1 ≤ getDistanceInBuffer demoTrace.ring.prod demoTrace.ring.cons ∧
    demoPush.prod = (demoTrace.ring.prod + 2) % 512 ∧
    demoPush.cons = demoTrace.ring.cons ∧
    demoPush.unread = [8, 9, 5, 6] :=
  have hc := (produce_contract demoOps demoTrace (eq_some_getD _ _ (by decide!))).1
    [5, 6] demoPush (by decide) (eq_some_getD _ _ (by decide!))
  ⟨hc.1, hc.2.1, hc.2.2.1, by decide!⟩

/-- Claim C15 (consume guard): in every reachable state of a buffer, the Converter advances
the consumer index, by one, only when `distance(consumer, producer) >= 2`, and the character
it reads is the oldest unread element; the Writer advances the consumer index by exactly
`distance(consumer, producer) - 1` (not at all when the buffer is empty) and reads exactly
the unread elements.  After either step the consumer index is still different from the
producer index and the distance has shrunk by the number of elements consumed. -/
theorem consume_guard (ops : List RingOp) (t : RingTrace)
    (h : ringRun ops RingTrace.init = some t) :
    (∀ free res r2, convertFile_take free t.ring = some (res, r2) →
      (res = none → r2 = t.ring) ∧
      (∀ c, res = some c →
        2 ≤ getDistanceInBuffer t.ring.cons t.ring.prod ∧
        r2.cons = (t.ring.cons + 1) % 512 ∧
        c = t.ring.buf r2.cons ∧
        t.ring.unread = c :: r2.unread ∧
        r2.cons ≠ r2.prod ∧
        getDistanceInBuffer r2.cons r2.prod =
          getDistanceInBuffer t.ring.cons t.ring.prod - 1)) ∧
    (∀ free tmp r2, writeFile_drain free t.ring = some (tmp, r2) →
      r2.cons = (t.ring.cons + (getDistanceInBuffer t.ring.cons t.ring.prod - 1)) % 512 ∧
      tmp = t.ring.unread ∧
      tmp.length = getDistanceInBuffer t.ring.cons t.ring.prod - 1 ∧
      (t.ring.isEmpty → r2.cons = t.ring.cons ∧ tmp = []) ∧
      r2.cons ≠ r2.prod ∧
      getDistanceInBuffer r2.cons r2.prod =
        getDistanceInBuffer t.ring.cons t.ring.prod - tmp.length) := by
  obtain ⟨hw, -⟩ := ringRun_init_inv ops t h
  obtain ⟨hp, hc, hne⟩ := hw
  constructor
  · intro free res r2 htake
    obtain ⟨hw2, hu, hprod, -, hnone, hsome⟩ :=
      convertFile_take_spec free _ _ _ ⟨hp, hc, hne⟩ htake
    refine ⟨fun hn => (hnone hn).1, ?_⟩
    intro c hres
    obtain ⟨hd, hcons, hval⟩ := hsome c hres
    subst hres
    refine ⟨hd, hcons, hval, by simpa [Option.toList] using hu, hw2.2.2.symm, ?_⟩
    · rw [dist_of_lt _ _ hc hp] at hd
      rw [dist_of_lt _ _ hw2.2.1 hw2.1, dist_of_lt _ _ hc hp, hprod, hcons]
      omega
  · intro free tmp r2 hdrain
    obtain ⟨hw2, htmp, -, hprod, -, hcons, hlen⟩ :=
      writeFile_drain_spec free _ _ _ ⟨hp, hc, hne⟩ hdrain
    refine ⟨hcons, htmp, hlen, ?_, hw2.2.2.symm, ?_⟩
    · intro he
      unfold Ring.isEmpty at he
      rw [he] at hcons hlen
      constructor
      · rw [hcons]; omega
      · exact List.length_eq_zero.1 (by omega)
    · rw [hlen, dist_of_lt _ _ hw2.2.1 hw2.1, hprod, hcons, dist_of_lt _ _ hc hp]
      omega

set_option maxRecDepth 1000000 in
/-- Witness of C15: the Converter takes the element `8` from the buffer reached by
`demoOps`, whose unread elements are `8, 9`. -/
theorem consume_guard_witness :
    demoTake.1 = some 8 ∧
    2 ≤ getDistanceInBuffer demoTrace.ring.cons demoTrace.ring.prod ∧
    demoTake.2.cons = (demoTrace.ring.cons + 1) % 512 ∧
    demoTrace.ring.unread = 8 :: demoTake.2.unread :=
  have hc := ((consume_guard demoOps demoTrace (eq_some_getD _ _ (by decide!))).1
    false demoTake.1 demoTake.2
    (eq_some_getD (convertFile_take false demoTrace.ring) (none, Ring.init) (by decide!))).2
    8 (by decide!)
  ⟨by decide!, hc.1, hc.2.1, hc.2.2.2.1⟩

/-! ## Index safety, absence of stuck states, end-of-stream signalling -/

/-- The bytes a drain copies are those at `writeFile_indices`. -/
theorem writeFile_drain_reads (free : Bool) (r r2 : Ring) (tmp : List Nat)
    (h : writeFile_drain free r = some (tmp, r2)) :
    tmp = (writeFile_indices r).map r.buf ∧ tmp.length = writeFile_count r := by
  unfold writeFile_drain at h
  simp only [] at h
  split_ifs at h
  simp only [Option.some.injEq, Prod.mk.injEq] at h
  rw [← h.1]
  simp [writeFile_indices, writeFile_count, List.map_map, Function.comp_def]

/-- The character a take returns is the one at `convertFile_take_index`. -/
theorem convertFile_take_reads (free : Bool) (r r2 : Ring) (c : Nat)
    (h : convertFile_take free r = some (some c, r2)) :
    c = r.buf (convertFile_take_index r) ∧ r2.cons = convertFile_take_index r := by
  unfold convertFile_take at h
  simp only [] at h
  split_ifs at h
  · simp at h
  · simp only [Option.some.injEq, Prod.mk.injEq] at h
    obtain ⟨h1, h2⟩ := h
    rw [← h1, ← h2]
    exact ⟨rfl, rfl⟩

/-- Lost wake-up against claim C14, for both consumers.  The consumer tests its loop
condition while the flag is still false; the producer then sets the flag and signals, with
nobody waiting yet; the consumer then calls `waitCondition`.  In the state reached the
producer has exited, the flag is set, the consumer is blocked and no statement is enabled:
it blocks forever.  When the consumer is already blocked before the flag is set, the signal
wakes it and it leaves the loop. -/
theorem lost_wakeup (who : Consumer) :
    handshakeRun who [.consumer, .producer, .producer, .consumer] Handshake.init =
      some ⟨true, 1, .exited, .blocked⟩ ∧
    (∀ side, handshakeStep who ⟨true, 1, .exited, .blocked⟩ side = none) ∧
    handshakeRun who [.consumer, .consumer, .producer, .producer, .consumer] Handshake.init =
      some ⟨true, 1, .exited, .past⟩ := by
  cases who <;> refine ⟨by decide, ?_, by decide⟩ <;> intro side <;> cases side <;> rfl

/-! ## The program and its abstraction -/

theorem init_abstract (input : List Nat) :
    (Program.init input).abstract = Pipeline.init input := rfl

theorem init_concrete (input : List Nat) :
    (Pipeline.init input).concrete = Program.init input := rfl

theorem converter_signalled_abstract (l : ConverterLoc) :
    l.signalled.abstract = l.abstract := by
  cases l <;> rfl

theorem writer_signalled_abstract (l : WriterLoc) :
    l.signalled.abstract = l.abstract := by
  cases l <;> rfl

theorem readFile_step_abstract (short : Nat) (p p2 : Program)
    (h : readFile_step short p = some p2) :
    readFile_guarded short p.abstract = some p2.abstract ∨ p2.abstract = p.abstract := by
  unfold readFile_step at h
  split at h
  · rename_i hl
    simp only [Option.some.injEq] at h
    subst h
    left
    simp [readFile_guarded, Program.abstract, hl, ReaderLoc.abstract]
  · rename_i hl
    by_cases hm : (p.reading_mutex_held || decide (p.cloc = .callWait)) = true
    · rw [if_pos hm] at h; exact absurd h (by simp)
    rw [if_neg hm] at h
    simp only [Bool.or_eq_true, decide_eq_true_eq, not_or, Bool.not_eq_true] at hm
    cases hp : readFile_push p.rtmp p.A with
    | none => simp [hp] at h
    | some a =>
      simp only [hp, Option.some.injEq] at h
      subst h
      left
      by_cases h0 : p.rtmp.length ≠ 0
      · simp [readFile_guarded, Program.abstract, hl, ReaderLoc.abstract, hm.1, hp, h0,
          converter_signalled_abstract]
      · simp [readFile_guarded, Program.abstract, hl, ReaderLoc.abstract, hm.1, hp, h0,
          converter_signalled_abstract]
  · rename_i hl
    simp only [Option.some.injEq] at h
    subst h
    left
    simp [readFile_guarded, Program.abstract, hl, ReaderLoc.abstract]
  · rename_i hl
    simp only [Option.some.injEq] at h
    subst h
    right
    simp [Program.abstract, hl, ReaderLoc.abstract, converter_signalled_abstract]
  · exact absurd h (by simp)

theorem convertFile_step_abstract (p p2 : Program) (h : convertFile_step p = some p2) :
    convertFile_guarded p.abstract = some p2.abstract ∨ p2.abstract = p.abstract := by
  unfold convertFile_step at h
  split at h
  · -- check
    rename_i hl
    left
    by_cases hcond : (!p.reading_buffer_free ||
        decide (getDistanceInBuffer p.A.cons p.A.prod ≠ 1)) = true
    · rw [if_pos hcond] at h
      simp only [Option.some.injEq] at h
      subst h
      simp only [convertFile_guarded, Program.abstract, hl, ConverterLoc.abstract]
      rw [if_pos hcond]
    · rw [if_neg hcond] at h
      simp only [Option.some.injEq] at h
      subst h
      simp only [convertFile_guarded, Program.abstract, hl, ConverterLoc.abstract]
      rw [if_neg hcond]
  · -- take
    rename_i hl
    by_cases hm : p.reading_mutex_held = true
    · rw [if_pos hm] at h; exact absurd h (by simp)
    rw [if_neg hm] at h
    split at h
    · rename_i htake
      simp only [Option.some.injEq] at h
      subst h
      right
      simp [Program.abstract, hl, ConverterLoc.abstract]
    · rename_i r0 htake
      simp only [Option.some.injEq] at h
      subst h
      left
      simp only [convertFile_guarded, Program.abstract, hl, ConverterLoc.abstract]
      rw [if_neg hm, htake]
    · rename_i c a htake
      left
      by_cases hcount : (acceptChar p.acc c).count = 2
      · rw [if_pos hcount] at h
        cases hconv : convertCharsToU8 (acceptChar p.acc c).vals with
        | error e =>
          rw [hconv] at h
          simp only [Option.some.injEq] at h
          subst h
          simp only [convertFile_guarded, Program.abstract, hl, ConverterLoc.abstract]
          rw [if_neg hm, htake]
          simp only []
          rw [if_pos hcount, hconv]
        | ok val =>
          rw [hconv] at h
          simp only [Option.some.injEq] at h
          subst h
          simp only [convertFile_guarded, Program.abstract, hl, ConverterLoc.abstract]
          rw [if_neg hm, htake]
          simp only []
          rw [if_pos hcount, hconv]
      · rw [if_neg hcount] at h
        simp only [Option.some.injEq] at h
        subst h
        simp only [convertFile_guarded, Program.abstract, hl, ConverterLoc.abstract]
        rw [if_neg hm, htake]
        simp only []
        rw [if_neg hcount]
  · -- callWait
    rename_i hl
    simp only [Option.some.injEq] at h
    subst h
    right
    simp [Program.abstract, hl, ConverterLoc.abstract]
  · exact absurd h (by simp)
  · -- put
    rename_i hl
    by_cases hw : p.wloc = .callWait
    · rw [if_pos hw] at h; exact absurd h (by simp)
    rw [if_neg hw] at h
    cases hp : convertFile_put p.val p.B with
    | none => simp [hp] at h
    | some b =>
      simp only [hp, Option.some.injEq] at h
      subst h
      left
      simp [convertFile_guarded, Program.abstract, hl, ConverterLoc.abstract, hp,
        writer_signalled_abstract]
  · -- setFlag
    rename_i hl
    simp only [Option.some.injEq] at h
    subst h
    left
    simp [convertFile_guarded, Program.abstract, hl, ConverterLoc.abstract]
  · -- signal
    rename_i hl
    simp only [Option.some.injEq] at h
    subst h
    right
    simp [Program.abstract, hl, ConverterLoc.abstract, writer_signalled_abstract]
  · exact absurd h (by simp)

theorem writeFile_step_abstract (p p2 : Program) (h : writeFile_step p = some p2) :
    writeFile_guarded p.abstract = some p2.abstract ∨ p2.abstract = p.abstract := by
  unfold writeFile_step at h
  split at h
  · rename_i hl
    left
    by_cases hcond : (!p.writing_buffer_free ||
        decide (getDistanceInBuffer p.B.cons p.B.prod ≠ 1)) = true
    · rw [if_pos hcond] at h
      simp only [Option.some.injEq] at h
      subst h
      simp only [writeFile_guarded, Program.abstract, hl, WriterLoc.abstract]
      rw [if_pos hcond]
    · rw [if_neg hcond] at h
      simp only [Option.some.injEq] at h
      subst h
      simp only [writeFile_guarded, Program.abstract, hl, WriterLoc.abstract]
      rw [if_neg hcond]
  · rename_i hl
    split at h
    · simp only [Option.some.injEq] at h
      subst h
      right
      simp [Program.abstract, hl, WriterLoc.abstract]
    · rename_i tmp b hdrain
      simp only [Option.some.injEq] at h
      subst h
      left
      simp only [writeFile_guarded, Program.abstract, hl, WriterLoc.abstract]
      rw [hdrain]
  · rename_i hl
    simp only [Option.some.injEq] at h
    subst h
    right
    simp [Program.abstract, hl, WriterLoc.abstract]
  · exact absurd h (by simp)
  · rename_i hl
    simp only [Option.some.injEq] at h
    subst h
    left
    simp [writeFile_guarded, Program.abstract, hl, WriterLoc.abstract]
  · exact absurd h (by simp)

/-- Every step of the program is a step of the abstraction or leaves its state unchanged. -/
theorem step_abstract (p p2 : Program) (t : Thread) (h : step p t = some p2) :
    guardedStep p.abstract t = some p2.abstract ∨ p2.abstract = p.abstract := by
  unfold step at h
  cases ha : p.aborted with
  | some e => simp [ha] at h
  | none =>
    simp only [ha, Option.isSome_none, Bool.false_eq_true, if_false] at h
    have hg : ∀ t, guardedStep p.abstract t =
        match t with
        | .reader short => readFile_guarded short p.abstract
        | .converter => convertFile_guarded p.abstract
        | .writer => writeFile_guarded p.abstract := by
      intro t
      simp [guardedStep, Program.abstract, ha]
    rw [hg]
    cases t with
    | reader short => exact readFile_step_abstract short p p2 h
    | converter => exact convertFile_step_abstract p p2 h
    | writer => exact writeFile_step_abstract p p2 h

/-- Every state the program reaches stands for a state the abstraction reaches. -/
theorem run_abstract (sched : List Thread) :
    ∀ p p2, run sched p = some p2 →
      ∃ sched2, guardedRun sched2 p.abstract = some p2.abstract := by
  induction sched with
  | nil =>
    intro p p2 h
    simp only [run, Option.some.injEq] at h
    subst h
    exact ⟨[], rfl⟩
  | cons t ts ih =>
    intro p p2 h
    rw [run] at h
    cases hs : step p t with
    | none => simp [hs] at h
    | some p1 =>
      rw [hs] at h
      obtain ⟨sched2, h2⟩ := ih p1 p2 h
      rcases step_abstract p p1 t hs with hstep | hsame
      · exact ⟨t :: sched2, by simp [guardedRun, hstep, h2]⟩
      · exact ⟨sched2, by rw [← hsame]; exact h2⟩

/-- The invariants of the abstraction hold in every state the program reaches. -/
theorem inv_of_run (input : List Nat) (sched : List Thread) (p : Program)
    (h : run sched (Program.init input) = some p) :
    Inv input p.abstract ∧ Inv2 p.abstract := by
  obtain ⟨sched2, h2⟩ := run_abstract sched _ p h
  rw [init_abstract] at h2
  exact inv_inv2_run input sched2 _ _ (inv_init input) (inv2_init input) h2

theorem run_append (xs ys : List Thread) :
    ∀ p p1 p2, run xs p = some p1 → run ys p1 = some p2 → run (xs ++ ys) p = some p2 := by
  induction xs with
  | nil =>
    intro p p1 p2 h1 h2
    simp only [run, Option.some.injEq] at h1
    subst h1
    simpa using h2
  | cons t ts ih =>
    intro p p1 p2 h1 h2
    rw [run] at h1
    cases hs : step p t with
    | none => simp [hs] at h1
    | some q =>
      rw [hs] at h1
      simp only [List.cons_append, run, hs]
      exact ih q p1 p2 h1 h2

theorem converter_concrete_signalled (c : ConverterPc) :
    c.concrete.signalled = c.concrete := by
  cases c <;> rfl

theorem writer_concrete_signalled (w : WriterPc) :
    w.concrete.signalled = w.concrete := by
  cases w <;> rfl

theorem converter_concrete_ne_callWait (c : ConverterPc) : c.concrete ≠ .callWait := by
  cases c <;> simp [ConverterPc.concrete]

theorem writer_concrete_ne_callWait (w : WriterPc) : w.concrete ≠ .callWait := by
  cases w <;> simp [WriterPc.concrete]

theorem readFile_guarded_concrete (short : Nat) (s s2 : Pipeline) (ha : s.aborted = none)
    (h : readFile_guarded short s = some s2) :
    ∃ sched, run sched s.concrete = some s2.concrete := by
  unfold readFile_guarded at h
  split at h
  · rename_i hpc
    simp only [Option.some.injEq] at h
    subst h
    refine ⟨[.reader short], ?_⟩
    simp [run, step, readFile_step, Pipeline.concrete, ha, hpc, ReaderPc.concrete]
  · rename_i hpc
    by_cases hm : s.reading_mutex_held = true
    · rw [if_pos hm] at h; exact absurd h (by simp)
    rw [if_neg hm] at h
    cases hp : readFile_push s.rtmp s.A with
    | none => simp [hp] at h
    | some a =>
      simp only [hp, Option.some.injEq] at h
      subst h
      refine ⟨[.reader short], ?_⟩
      by_cases h0 : s.rtmp.length ≠ 0
      · simp [run, step, readFile_step, Pipeline.concrete, ha, hpc, ReaderPc.concrete, hm, hp,
          h0, converter_concrete_signalled, converter_concrete_ne_callWait]
      · simp [run, step, readFile_step, Pipeline.concrete, ha, hpc, ReaderPc.concrete, hm, hp,
          h0, converter_concrete_signalled, converter_concrete_ne_callWait]
  · rename_i hpc
    simp only [Option.some.injEq] at h
    subst h
    refine ⟨[.reader short, .reader short], ?_⟩
    simp [run, step, readFile_step, Pipeline.concrete, ha, hpc, ReaderPc.concrete,
      converter_concrete_signalled]
  · exact absurd h (by simp)

theorem writeFile_guarded_concrete (s s2 : Pipeline) (ha : s.aborted = none)
    (h : writeFile_guarded s = some s2) :
    ∃ sched, run sched s.concrete = some s2.concrete := by
  unfold writeFile_guarded at h
  split at h
  · rename_i hpc
    refine ⟨[.writer], ?_⟩
    by_cases hcond : (!s.writing_buffer_free ||
        decide (getDistanceInBuffer s.B.cons s.B.prod ≠ 1)) = true
    · rw [if_pos hcond] at h
      simp only [Option.some.injEq] at h
      subst h
      simp only [run, step, writeFile_step, Pipeline.concrete, ha, hpc, WriterPc.concrete,
        Option.isSome_none, Bool.false_eq_true, if_false]
      rw [if_pos hcond]
    · rw [if_neg hcond] at h
      simp only [Option.some.injEq] at h
      subst h
      simp only [run, step, writeFile_step, Pipeline.concrete, ha, hpc, WriterPc.concrete,
        Option.isSome_none, Bool.false_eq_true, if_false]
      rw [if_neg hcond]
  · rename_i hpc
    split at h
    · exact absurd h (by simp)
    · rename_i tmp b hdrain
      simp only [Option.some.injEq] at h
      subst h
      refine ⟨[.writer], ?_⟩
      simp [run, step, writeFile_step, Pipeline.concrete, ha, hpc, WriterPc.concrete, hdrain]
  · rename_i hpc
    simp only [Option.some.injEq] at h
    subst h
    refine ⟨[.writer], ?_⟩
    simp [run, step, writeFile_step, Pipeline.concrete, ha, hpc, WriterPc.concrete]
  · exact absurd h (by simp)

theorem convertFile_guarded_concrete (s s2 : Pipeline) (ha : s.aborted = none)
    (h : convertFile_guarded s = some s2) :
    ∃ sched, run sched s.concrete = some s2.concrete := by
  unfold convertFile_guarded at h
  split at h
  · rename_i hpc
    refine ⟨[.converter], ?_⟩
    by_cases hcond : (!s.reading_buffer_free ||
        decide (getDistanceInBuffer s.A.cons s.A.prod ≠ 1)) = true
    · rw [if_pos hcond] at h
      simp only [Option.some.injEq] at h
      subst h
      simp only [run, step, convertFile_step, Pipeline.concrete, ha, hpc, ConverterPc.concrete,
        Option.isSome_none, Bool.false_eq_true, if_false]
      rw [if_pos hcond]
    · rw [if_neg hcond] at h
      simp only [Option.some.injEq] at h
      subst h
      simp only [run, step, convertFile_step, Pipeline.concrete, ha, hpc, ConverterPc.concrete,
        Option.isSome_none, Bool.false_eq_true, if_false]
      rw [if_neg hcond]
  · rename_i hpc
    by_cases hm : s.reading_mutex_held = true
    · rw [if_pos hm] at h; exact absurd h (by simp)
    rw [if_neg hm] at h
    refine ⟨[.converter], ?_⟩
    split at h
    · exact absurd h (by simp)
    · rename_i r0 htake
      simp only [Option.some.injEq] at h
      subst h
      simp only [run, step, convertFile_step, Pipeline.concrete, ha, hpc, ConverterPc.concrete,
        Option.isSome_none, Bool.false_eq_true, if_false]
      rw [if_neg hm, htake]
    · rename_i c a htake
      by_cases hcount : (acceptChar s.acc c).count = 2
      · rw [if_pos hcount] at h
        cases hconv : convertCharsToU8 (acceptChar s.acc c).vals with
        | error e =>
          rw [hconv] at h
          simp only [Option.some.injEq] at h
          subst h
          simp only [run, step, convertFile_step, Pipeline.concrete, ha, hpc,
            ConverterPc.concrete, Option.isSome_none, Bool.false_eq_true, if_false]
          rw [if_neg hm, htake]
          simp only []
          rw [if_pos hcount, hconv]
        | ok val =>
          rw [hconv] at h
          simp only [Option.some.injEq] at h
          subst h
          simp only [run, step, convertFile_step, Pipeline.concrete, ha, hpc,
            ConverterPc.concrete, Option.isSome_none, Bool.false_eq_true, if_false]
          rw [if_neg hm, htake]
          simp only []
          rw [if_pos hcount, hconv]
      · rw [if_neg hcount] at h
        simp only [Option.some.injEq] at h
        subst h
        simp only [run, step, convertFile_step, Pipeline.concrete, ha, hpc,
          ConverterPc.concrete, Option.isSome_none, Bool.false_eq_true, if_false]
        rw [if_neg hm, htake]
        simp only []
        rw [if_neg hcount]
  · rename_i hpc
    cases hp : convertFile_put s.val s.B with
    | none => simp [hp] at h
    | some b =>
      simp only [hp, Option.some.injEq] at h
      subst h
      refine ⟨[.converter], ?_⟩
      simp [run, step, convertFile_step, Pipeline.concrete, ha, hpc, ConverterPc.concrete, hp,
        writer_concrete_signalled, writer_concrete_ne_callWait]
  · rename_i hpc
    simp only [Option.some.injEq] at h
    subst h
    refine ⟨[.converter, .converter], ?_⟩
    simp [run, step, convertFile_step, Pipeline.concrete, ha, hpc, ConverterPc.concrete,
      writer_concrete_signalled]
  · exact absurd h (by simp)

/-- Every run of the abstraction is, step for step, a run of the program in which no consumer
ever has to wait. -/
theorem guardedRun_concrete (sched : List Thread) :
    ∀ s s2, guardedRun sched s = some s2 →
      ∃ sched2, run sched2 s.concrete = some s2.concrete := by
  induction sched with
  | nil =>
    intro s s2 h
    simp only [guardedRun, Option.some.injEq] at h
    subst h
    exact ⟨[], rfl⟩
  | cons t ts ih =>
    intro s s2 h
    rw [guardedRun] at h
    cases hs : guardedStep s t with
    | none => simp [hs] at h
    | some s1 =>
      rw [hs] at h
      obtain ⟨sched2, h2⟩ := ih s1 s2 h
      have hstep : ∃ sched1, run sched1 s.concrete = some s1.concrete := by
        unfold guardedStep at hs
        cases ha : s.aborted with
        | some e => simp [ha] at hs
        | none =>
          simp only [ha, Option.isSome_none, Bool.false_eq_true, if_false] at hs
          cases t with
          | reader short => exact readFile_guarded_concrete short s s1 ha hs
          | converter => exact convertFile_guarded_concrete s s1 ha hs
          | writer => exact writeFile_guarded_concrete s s1 ha hs
      obtain ⟨sched1, h1⟩ := hstep
      exact ⟨sched1 ++ sched2, run_append sched1 sched2 _ _ _ h1 h2⟩

theorem concrete_terminated (s : Pipeline) (h : s.terminated) : s.concrete.terminated := by
  obtain ⟨h1, h2, h3⟩ := h
  simp [Program.terminated, Pipeline.concrete, h1, h2, h3, ReaderPc.concrete,
    ConverterPc.concrete, WriterPc.concrete]

theorem abstract_terminated (p : Program) (h : p.terminated) : p.abstract.terminated := by
  obtain ⟨h1, h2, h3⟩ := h
  simp [Pipeline.terminated, Program.abstract, h1, h2, h3, ReaderLoc.abstract,
    ConverterLoc.abstract, WriterLoc.abstract]

/-- On an input that decodes without error the program has a run in which the three
threads terminate. -/
theorem exists_terminating_program_run (input : List Nat)
    (hok : (convertFile input).2 = none) :
    ∃ sched p, run sched (Program.init input) = some p ∧ p.terminated := by
  obtain ⟨sched, s, hrun, hterm⟩ :=
    exists_terminating_run input hok (Pipeline.init input).measure (Pipeline.init input)
      (Nat.le_refl _) (inv_init input) (inv2_init input) rfl
  obtain ⟨sched2, h2⟩ := guardedRun_concrete sched _ s hrun
  rw [init_concrete] at h2
  exact ⟨sched2, s.concrete, h2, concrete_terminated s hterm⟩

/-! ## The program: what its stuck states are -/

theorem waitInv_init (input : List Nat) : WaitInv (Program.init input) where
  conv := by simp [Program.init]
  writ := by simp [Program.init]

theorem converter_signalled_wait (l : ConverterLoc)
    (h : l.signalled = .callWait ∨ l.signalled = .blocked) : l = .callWait := by
  cases l <;> simp [ConverterLoc.signalled] at h ⊢

theorem writer_signalled_wait (l : WriterLoc)
    (h : l.signalled = .callWait ∨ l.signalled = .blocked) : l = .callWait := by
  cases l <;> simp [WriterLoc.signalled] at h ⊢

theorem waitInv_readFile_step (short : Nat) (p p2 : Program) (hw : WaitInv p)
    (h : readFile_step short p = some p2) : WaitInv p2 := by
  unfold readFile_step at h
  split at h
  · simp only [Option.some.injEq] at h
    subst h
    exact ⟨hw.conv, hw.writ⟩
  · by_cases hm : (p.reading_mutex_held || decide (p.cloc = .callWait)) = true
    · rw [if_pos hm] at h; exact absurd h (by simp)
    rw [if_neg hm] at h
    simp only [Bool.or_eq_true, decide_eq_true_eq, not_or, Bool.not_eq_true] at hm
    cases hp : readFile_push p.rtmp p.A with
    | none => simp [hp] at h
    | some a =>
      simp only [hp, Option.some.injEq] at h
      subst h
      exact ⟨fun hc => absurd (converter_signalled_wait _ hc) hm.2, hw.writ⟩
  · simp only [Option.some.injEq] at h
    subst h
    exact ⟨hw.conv, hw.writ⟩
  · simp only [Option.some.injEq] at h
    subst h
    exact ⟨fun hc => hw.conv (Or.inl (converter_signalled_wait _ hc)), hw.writ⟩
  · exact absurd h (by simp)

theorem waitInv_convertFile_step (p p2 : Program) (hw : WaitInv p)
    (h : convertFile_step p = some p2) : WaitInv p2 := by
  unfold convertFile_step at h
  split at h
  · by_cases hcond : (!p.reading_buffer_free ||
        decide (getDistanceInBuffer p.A.cons p.A.prod ≠ 1)) = true
    · rw [if_pos hcond] at h
      simp only [Option.some.injEq] at h
      subst h
      exact ⟨by simp, hw.writ⟩
    · rw [if_neg hcond] at h
      simp only [Option.some.injEq] at h
      subst h
      exact ⟨by simp, hw.writ⟩
  · rename_i hl
    by_cases hm : p.reading_mutex_held = true
    · rw [if_pos hm] at h; exact absurd h (by simp)
    rw [if_neg hm] at h
    split at h
    · rename_i htake
      simp only [Option.some.injEq] at h
      subst h
      refine ⟨fun _ => ?_, hw.writ⟩
      unfold convertFile_take at htake
      simp only [] at htake
      split_ifs at htake with h1
      simp only [Bool.and_eq_true, Bool.not_eq_true', decide_eq_true_eq] at h1
      exact h1.2
    · simp only [Option.some.injEq] at h
      subst h
      exact ⟨by simp, hw.writ⟩
    · rename_i c a htake
      by_cases hcount : (acceptChar p.acc c).count = 2
      · rw [if_pos hcount] at h
        cases hconv : convertCharsToU8 (acceptChar p.acc c).vals with
        | error e =>
          rw [hconv] at h
          simp only [Option.some.injEq] at h
          subst h
          exact ⟨by simp [hl], hw.writ⟩
        | ok val =>
          rw [hconv] at h
          simp only [Option.some.injEq] at h
          subst h
          exact ⟨by simp, hw.writ⟩
      · rw [if_neg hcount] at h
        simp only [Option.some.injEq] at h
        subst h
        exact ⟨by simp, hw.writ⟩
  · simp only [Option.some.injEq] at h
    subst h
    exact ⟨fun _ => hw.conv (Or.inl (by assumption)), hw.writ⟩
  · exact absurd h (by simp)
  · by_cases hwl : p.wloc = .callWait
    · rw [if_pos hwl] at h; exact absurd h (by simp)
    rw [if_neg hwl] at h
    cases hp : convertFile_put p.val p.B with
    | none => simp [hp] at h
    | some b =>
      simp only [hp, Option.some.injEq] at h
      subst h
      exact ⟨by simp, fun hc => absurd (writer_signalled_wait _ hc) hwl⟩
  · simp only [Option.some.injEq] at h
    subst h
    exact ⟨by simp, hw.writ⟩
  · simp only [Option.some.injEq] at h
    subst h
    exact ⟨by simp, fun hc => hw.writ (Or.inl (writer_signalled_wait _ hc))⟩
  · exact absurd h (by simp)

theorem waitInv_writeFile_step (p p2 : Program) (hw : WaitInv p)
    (h : writeFile_step p = some p2) : WaitInv p2 := by
  unfold writeFile_step at h
  split at h
  · by_cases hcond : (!p.writing_buffer_free ||
        decide (getDistanceInBuffer p.B.cons p.B.prod ≠ 1)) = true
    · rw [if_pos hcond] at h
      simp only [Option.some.injEq] at h
      subst h
      exact ⟨hw.conv, by simp⟩
    · rw [if_neg hcond] at h
      simp only [Option.some.injEq] at h
      subst h
      exact ⟨hw.conv, by simp⟩
  · split at h
    · rename_i hdrain
      simp only [Option.some.injEq] at h
      subst h
      refine ⟨hw.conv, fun _ => ?_⟩
      unfold writeFile_drain at hdrain
      simp only [] at hdrain
      split_ifs at hdrain with h1
      simp only [Bool.and_eq_true, Bool.not_eq_true', decide_eq_true_eq] at h1
      exact h1.2
    · simp only [Option.some.injEq] at h
      subst h
      exact ⟨hw.conv, by simp⟩
  · simp only [Option.some.injEq] at h
    subst h
    exact ⟨hw.conv, fun _ => hw.writ (Or.inl (by assumption))⟩
  · exact absurd h (by simp)
  · simp only [Option.some.injEq] at h
    subst h
    exact ⟨hw.conv, by simp⟩
  · exact absurd h (by simp)

theorem waitInv_run (sched : List Thread) :
    ∀ p p2, WaitInv p → run sched p = some p2 → WaitInv p2 := by
  induction sched with
  | nil =>
    intro p p2 hw h
    simp only [run, Option.some.injEq] at h
    exact h ▸ hw
  | cons t ts ih =>
    intro p p2 hw h
    rw [run] at h
    cases hs : step p t with
    | none => simp [hs] at h
    | some p1 =>
      rw [hs] at h
      refine ih p1 p2 ?_ h
      unfold step at hs
      cases ha : p.aborted with
      | some e => simp [ha] at hs
      | none =>
        simp only [ha, Option.isSome_none, Bool.false_eq_true, if_false] at hs
        cases t with
        | reader short => exact waitInv_readFile_step short p p1 hw hs
        | converter => exact waitInv_convertFile_step p p1 hw hs
        | writer => exact waitInv_writeFile_step p p1 hw hs

theorem step_of_not_aborted (p : Program) (ha : p.aborted = none) (t : Thread) :
    step p t =
      match t with
      | .reader short => readFile_step short p
      | .converter => convertFile_step p
      | .writer => writeFile_step p := by
  simp [step, ha]

/-- In the program, a state that is not over and in which no consumer is blocked behind an
exited producer has an enabled step. -/
theorem program_progress (input : List Nat) (p : Program)
    (hi : Inv input p.abstract) (hj : Inv2 p.abstract) (hw : WaitInv p)
    (hne : ¬ p.ended) (hlw : ¬ p.lostWakeup) :
    ∃ t, (step p t).isSome = true := by
  have ha : p.aborted = none := by
    cases hab : p.aborted with
    | none => rfl
    | some e => exact absurd (Or.inr (by simp [hab])) hne
  have hwfA : p.A.wf := hi.wfA
  have hwfB : p.B.wf := hi.wfB
  obtain ⟨hpA, hcA, hneA⟩ := hwfA
  obtain ⟨hpB, hcB, hneB⟩ := hwfB
  -- the Writer moves unless it is blocked or has exited
  have writer_moves : p.wloc ≠ .blocked → p.wloc ≠ .done → ∃ t, (step p t).isSome = true := by
    intro h1 h2
    refine ⟨.writer, ?_⟩
    rw [step_of_not_aborted p ha]
    simp only []
    unfold writeFile_step
    cases hl : p.wloc with
    | check => simp only []; split_ifs <;> rfl
    | drain =>
      simp only []
      cases writeFile_drain p.writing_buffer_free p.B with
      | none => rfl
      | some res => rfl
    | callWait => rfl
    | blocked => exact absurd hl h1
    | fwrite => rfl
    | done => exact absurd hl h2
  -- the Reader moves unless it waits for room or has exited
  have reader_moves : p.rloc ≠ .done → p.cloc ≠ .callWait →
      getDistanceInBuffer p.A.cons p.A.prod ≤ 1 → p.reading_mutex_held = false →
      ∃ t, (step p t).isSome = true := by
    intro h1 h2 hd hm
    refine ⟨.reader 255, ?_⟩
    rw [step_of_not_aborted p ha]
    simp only []
    unfold readFile_step
    cases hl : p.rloc with
    | fread => rfl
    | push =>
      have hlen : p.rtmp.length ≤ 256 := hi.rtmp_len
      rw [dist_of_lt _ _ hcA hpA] at hd
      have hroom : ¬ (getDistanceInBuffer p.A.prod p.A.cons < (p.rtmp.length + 1) % U32) := by
        rw [dist_of_lt _ _ hpA hcA]
        unfold U32
        omega
      simp [hm, h2, readFile_push, hroom]
    | setFlag => rfl
    | signal => rfl
    | done => exact absurd hl h1
  have hheld : p.cloc.abstract = .take → p.reading_mutex_held = false := by
    intro hc
    cases hmm : p.reading_mutex_held with
    | false => rfl
    | true => exact absurd hc (hj.mutex hmm).2.2.1
  cases hc : p.cloc with
  | check =>
    refine ⟨.converter, ?_⟩
    rw [step_of_not_aborted p ha]
    simp only []
    unfold convertFile_step
    rw [hc]
    simp only []
    split_ifs <;> rfl
  | take =>
    have hm := hheld (by rw [hc]; rfl)
    refine ⟨.converter, ?_⟩
    rw [step_of_not_aborted p ha]
    simp only []
    unfold convertFile_step
    rw [hc]
    simp only [hm, Bool.false_eq_true, if_false]
    cases hres : convertFile_take p.reading_buffer_free p.A with
    | none => rfl
    | some res =>
      obtain ⟨c, a⟩ := res
      cases c with
      | none => rfl
      | some c =>
        simp only []
        split_ifs
        · cases convertCharsToU8 (acceptChar p.acc c).vals <;> rfl
        · rfl
  | callWait =>
    refine ⟨.converter, ?_⟩
    rw [step_of_not_aborted p ha]
    simp only []
    unfold convertFile_step
    rw [hc]
    rfl
  | blocked =>
    have hm := hheld (by rw [hc]; rfl)
    apply reader_moves
    · intro hr
      exact hlw (Or.inl ⟨hc, hr⟩)
    · rw [hc]; simp
    · exact hw.conv (Or.inr hc)
    · exact hm
  | put =>
    by_cases hwl : p.wloc = .blocked
    · -- the Writer is blocked: buffer B holds fewer than 255 bytes, the push is possible
      have hd := hw.writ (Or.inr hwl)
      refine ⟨.converter, ?_⟩
      rw [step_of_not_aborted p ha]
      simp only []
      unfold convertFile_step
      rw [hc]
      have hroom : ¬ getDistanceInBuffer p.B.prod p.B.cons = 1 := by
        rw [dist_of_lt _ _ hcB hpB] at hd
        rw [dist_of_lt _ _ hpB hcB]
        unfold DUMP_SIZE BUFFER_SIZE at hd
        omega
      simp [hwl, convertFile_put, hroom]
    · apply writer_moves hwl
      intro hwd
      have h1 := (hi.wdone (by simp [Program.abstract, hwd, WriterLoc.abstract])).1
      have h2 := hi.wfree.1 h1
      simp [Program.abstract, hc, ConverterLoc.abstract] at h2
  | setFlag =>
    refine ⟨.converter, ?_⟩
    rw [step_of_not_aborted p ha]
    simp only []
    unfold convertFile_step
    rw [hc]
    rfl
  | signal =>
    refine ⟨.converter, ?_⟩
    rw [step_of_not_aborted p ha]
    simp only []
    unfold convertFile_step
    rw [hc]
    rfl
  | done =>
    by_cases hwd : p.wloc = .done
    · -- Converter and Writer have exited: the Reader is about to signal or has exited
      have hfree := (hi.cdone (Or.inr (by simp [Program.abstract, hc, ConverterLoc.abstract]))).1
      have hrpc := hi.rfree.1 hfree
      refine ⟨.reader 255, ?_⟩
      rw [step_of_not_aborted p ha]
      simp only []
      unfold readFile_step
      cases hl : p.rloc with
      | fread => rfl
      | push => simp [Program.abstract, hl, ReaderLoc.abstract] at hrpc
      | setFlag => rfl
      | signal => rfl
      | done => exact absurd (Or.inl ⟨hl, hc, hwd⟩) hne
    · apply writer_moves _ hwd
      intro hwb
      exact hlw (Or.inr ⟨hwb, hc⟩)

/-! ## The claims on the whole process -/

theorem readFile_step_done (short : Nat) (p : Program) (h : p.rloc = .done) :
    readFile_step short p = none := by
  simp [readFile_step, h]

theorem convertFile_step_blocked (p : Program) (h : p.cloc = .blocked) :
    convertFile_step p = none := by
  simp [convertFile_step, h]

theorem writeFile_step_blocked (p : Program) (h : p.wloc = .blocked) :
    writeFile_step p = none := by
  simp [writeFile_step, h]

/-- The program reaches a stuck state by a lost wake-up: on the empty input, after
`lostWakeupSchedule`, the Reader has exited with the flag set, Converter and Writer are
blocked in `pthread_cond_wait`, and no thread has a step. -/
theorem pipeline_lost_wakeup :
    run lostWakeupSchedule (Program.init []) = some lostWakeupState ∧
    lostWakeupState.rloc = .done ∧ lostWakeupState.reading_buffer_free = true ∧
    lostWakeupState.cloc = .blocked ∧ lostWakeupState.wloc = .blocked ∧
    ¬ lostWakeupState.ended ∧ lostWakeupState.lostWakeup ∧
    ∀ t, step lostWakeupState t = none := by
  have hr : lostWakeupState.rloc = .done := by decide!
  have hc : lostWakeupState.cloc = .blocked := by decide!
  have hw : lostWakeupState.wloc = .blocked := by decide!
  have ha : lostWakeupState.aborted = none := by decide!
  refine ⟨eq_some_getD _ _ (by decide!), hr, by decide!, hc, hw, by decide!,
    Or.inl ⟨hc, hr⟩, ?_⟩
  intro t
  rw [step_of_not_aborted _ ha]
  cases t with
  | reader short => exact readFile_step_done short _ hr
  | converter => exact convertFile_step_blocked _ hc
  | writer => exact writeFile_step_blocked _ hw

/-- Claim C6 (end-to-end equivalence): for every input on which decoding does not fail and
every interleaving of the steps of the three threads, a run from the initial state (producer
index 0, consumer index 511 on both buffers) that ends with all three threads terminated has
written exactly the bytes the sequential Converter produces, which are the pair-wise decoding
of the input without its separators; an empty input gives an empty output.  Such a run
exists for every such input, of any length. -/
theorem pipeline_output_eq_sequential (input : List Nat)
    (hok : (convertFile input).2 = none) :
    (∀ sched p, run sched (Program.init input) = some p → p.terminated →
      p.output = (convertFile input).1 ∧
      p.output = (decodePairs (stripSeparators input)).1 ∧
      (input = [] → p.output = [])) ∧
    (∃ sched p, run sched (Program.init input) = some p ∧ p.terminated) := by
  constructor
  · intro sched p hrun hterm
    have hi := (inv_of_run input sched p hrun).1
    have h := terminated_output input p.abstract hi (abstract_terminated p hterm)
    have hout : p.output = (convertFile input).1 := h.2.2
    refine ⟨hout, ?_, ?_⟩
    · rw [hout, convertFile_eq_decodePairs]
    · intro he
      rw [hout, he]
      rfl
  · exact exists_terminating_program_run input hok

/-- Witness of C6: an interleaving on the input `4 1A` in which Converter and Writer block
and are woken, and the three threads terminate. -/
theorem pipeline_output_eq_sequential_witness :
    (convertFile demoInput).2 = none ∧
    run demoSchedule (Program.init demoInput) = some demoFinal ∧
    demoFinal.terminated ∧
    demoFinal.output = [0x41] :=
  ⟨by decide, eq_some_getD _ _ (by decide!), by decide!,
   ((pipeline_output_eq_sequential demoInput (by decide)).1 demoSchedule demoFinal
      (eq_some_getD _ _ (by decide!)) (by decide!)).1⟩

set_option maxRecDepth 1000000 in
/-- Counterexample to claim C11 as stated: on an input of 600 digits, with the Writer
scheduled late, a state is reached in which the Writer is about to enter its critical section
(at `drain`, the Converter not finished) and its drain step removes 300 bytes, more than
`DUMP_SIZE = 256`. -/
theorem drain_exceeds_dump_size :
    (run lateWriterSchedule (Program.init longInput)).map
      (fun p => (p.wloc, p.writing_buffer_free,
        (writeFile_drain p.writing_buffer_free p.B).map (fun res => res.1.length))) =
      some (WriterLoc.drain, false, some 300) ∧
    DUMP_SIZE < 300 := by
  constructor
  · decide!
  · decide

/-- Claim C17 (index safety): in every state reachable from the initial state, on both
buffers `1 <= distance(consumer, producer) <= 511`; the count `dist - 1` of the Writer does
not wrap and is at most 510, so its subscripts of `tmp` stay below 512; the chunk of the
Reader has at most `DUMP_SIZE` characters, the size of its `tmp`; and every subscript of
`reading_buffer` and `writing_buffer` used by the Reader, the Converter and the Writer is
below `BUFFER_SIZE`. -/
theorem index_safety (input : List Nat) (sched : List Thread) (p : Program)
    (h : run sched (Program.init input) = some p) :
    (1 ≤ getDistanceInBuffer p.A.cons p.A.prod ∧ getDistanceInBuffer p.A.cons p.A.prod ≤ 511) ∧
    (1 ≤ getDistanceInBuffer p.B.cons p.B.prod ∧ getDistanceInBuffer p.B.cons p.B.prod ≤ 511) ∧
    ((writeFile_count p.B : Int) = (getDistanceInBuffer p.B.cons p.B.prod : Int) - 1 ∧
      writeFile_count p.B ≤ 510 ∧
      (∀ i, i < writeFile_count p.B → i < BUFFER_SIZE) ∧
      (∀ j ∈ writeFile_indices p.B, j < BUFFER_SIZE)) ∧
    (p.rtmp.length ≤ DUMP_SIZE ∧
      (∀ j ∈ readFile_indices p.rtmp.length p.A, j < BUFFER_SIZE)) ∧
    (convertFile_take_index p.A < BUFFER_SIZE ∧ convertFile_put_index p.B < BUFFER_SIZE) := by
  have hi := (inv_of_run input sched p h).1
  have hwfA : p.A.wf := hi.wfA
  have hwfB : p.B.wf := hi.wfB
  have hrt : p.rtmp.length ≤ 256 := hi.rtmp_len
  obtain ⟨hpA, hcA, hneA⟩ := hwfA
  obtain ⟨hpB, hcB, hneB⟩ := hwfB
  have hdA := dist_of_lt _ _ hcA hpA
  have hdB := dist_of_lt _ _ hcB hpB
  have hcount : writeFile_count p.B = getDistanceInBuffer p.B.cons p.B.prod - 1 := by
    unfold writeFile_count U32
    rw [hdB]
    omega
  refine ⟨by omega, by omega, ⟨?_, ?_, ?_, ?_⟩, ⟨?_, ?_⟩, ?_, ?_⟩
  · rw [hcount]; omega
  · rw [hcount]; omega
  · intro i hi2
    rw [hcount] at hi2
    unfold BUFFER_SIZE
    omega
  · intro j hj
    unfold writeFile_indices at hj
    rw [List.mem_map] at hj
    obtain ⟨i, -, rfl⟩ := hj
    exact Nat.mod_lt _ (by decide)
  · unfold DUMP_SIZE BUFFER_SIZE
    omega
  · intro j hj
    unfold readFile_indices at hj
    rw [List.mem_map] at hj
    obtain ⟨i, -, rfl⟩ := hj
    exact Nat.mod_lt _ (by decide)
  · exact Nat.mod_lt _ (by decide)
  · unfold convertFile_put_index BUFFER_SIZE
    exact hpB

set_option maxRecDepth 1000000 in
/-- Witness of C17: the state reached by `lateWriterSchedule`, with 300 bytes unread in
buffer B. -/
theorem index_safety_witness :
    (run lateWriterSchedule (Program.init longInput)).isSome = true ∧
    ∀ p, run lateWriterSchedule (Program.init longInput) = some p →
      writeFile_count p.B ≤ 510 ∧ convertFile_put_index p.B < BUFFER_SIZE :=
  ⟨by decide!, fun p hp =>
    ⟨(index_safety longInput lateWriterSchedule p hp).2.2.1.2.1,
     (index_safety longInput lateWriterSchedule p hp).2.2.2.2.2⟩⟩

theorem guardedStep_of_aborted (s : Pipeline) (h : s.aborted.isSome = true) (t : Thread) :
    guardedStep s t = none := by
  simp [guardedStep, h]

/-- Counterexample to claim C18 as stated: on the input `4G` the atomic-step model reaches
the state in which the Converter has called `exit(-1)`; there not all three threads have
terminated, and no thread has an enabled step. -/
theorem stuck_after_fatal_error :
    guardedRun fatalSchedule (Pipeline.init (bytesOf "4G")) = some fatalState ∧
    fatalState.aborted = some 71 ∧
    ¬ fatalState.terminated ∧
    ∀ t, guardedStep fatalState t = none :=
  ⟨eq_some_getD _ _ (by decide!), by decide!, by decide!,
   guardedStep_of_aborted fatalState (by decide!)⟩

/-- Claim C18, amended.  In the atomic-step model (waits modelled as guards), every
reachable state in which the process is not over (not all three threads have terminated and
no `exit(-1)` has ended it) has a thread with an enabled step.  In the program, where a
consumer tests its wait condition and calls `pthread_cond_wait` in two steps, the same holds
of every such state in which no consumer is blocked behind a producer that has exited. -/
theorem no_stuck_state (input : List Nat) :
    (∀ sched s, guardedRun sched (Pipeline.init input) = some s → ¬ s.ended →
      ∃ t, (guardedStep s t).isSome = true) ∧
    (∀ sched p, run sched (Program.init input) = some p → ¬ p.ended → ¬ p.lostWakeup →
      ∃ t, (step p t).isSome = true) := by
  constructor
  · intro sched s h hne
    obtain ⟨hi, hj⟩ := inv_inv2_run input sched _ s (inv_init input) (inv2_init input) h
    have ha : s.aborted = none := by
      cases hab : s.aborted with
      | none => rfl
      | some e => exact absurd (Or.inr (by simp [hab])) hne
    exact progress input s hi hj ha (fun ht => hne (Or.inl ht))
  · intro sched p h hne hlw
    obtain ⟨hi, hj⟩ := inv_of_run input sched p h
    have hw := waitInv_run sched _ p (waitInv_init input) h
    exact program_progress input p hi hj hw hne hlw

/-- Witness of the amended C18: after `waitingSchedule` Converter and Writer are blocked in
`pthread_cond_wait`, the process is not over, and a thread (the Reader) can move. -/
theorem no_stuck_state_witness :
    run waitingSchedule (Program.init demoInput) = some waitingState ∧
    waitingState.cloc = .blocked ∧ waitingState.wloc = .blocked ∧
    ¬ waitingState.ended ∧ ¬ waitingState.lostWakeup ∧
    ∃ t, (step waitingState t).isSome = true :=
  ⟨eq_some_getD _ _ (by decide!), by decide!, by decide!, by decide!, by decide!,
   (no_stuck_state demoInput).2 waitingSchedule waitingState
     (eq_some_getD _ _ (by decide!)) (by decide!) (by decide!)⟩

end BinaryMaker
